import Mathlib

/-!
Verification of the Cargo manifest round-trip model and the version-bump task
of this repository (src/kraken/std/cargo/manifest.py and
src/kraken/std/cargo/tasks/cargo_bump_version_task.py).

The manifest code operates on trees decoded from TOML by an external library
(tomli); we model those trees by the inductive type `Cargo.Toml`, with tables
as association lists in insertion order, matching Python dicts (which keep
insertion order and have unique keys; `Toml.wf` states the unique-key
well-formedness that every tomli-decoded tree enjoys).  TOML has no null, so
the value type has no null constructor; the pervasive Python filters
of the form "if v is not None" therefore keep every tree value.

Python dict primitives are embedded as operations on association lists:
`d[k]` / `d.get(k)` as `lookupKey`, `k in d` as `hasKey`, `d.pop(k)` as
`lookupKey` plus `eraseKey`, `d[k] = v` (update in place, append if new) as
`setKey`, and `d.update(u)` as a fold of `setKey`.  Python `==` on dicts
(key/value equality, insertion order ignored) is embedded as `Toml.eqv`.

File IO and the TOML text encoder/decoder are external collaborators; the
`read` entry point is therefore given the already-decoded tree, and
serialization is verified at the tree level (`to_json`), which is the exact
input the external encoder receives in `to_toml_string`.
-/

namespace Cargo

/-- A TOML-like value as decoded by tomli: scalars, arrays, and tables
(Python dicts, kept as association lists in insertion order). -/
inductive Toml where
  | str (s : String)
  | int (n : Int)
  | bool (b : Bool)
  | arr (xs : List Toml)
  | table (kvs : List (String × Toml))

/-- A decoded table: a Python dict from strings to TOML values. -/
abbrev Dict := List (String × Toml)

/-- Python `d.get(k)` / `d[k]`: the value at the first occurrence of key `k`. -/
def lookupKey {α : Type} : List (String × α) → String → Option α
  | [], _ => none
  | (k2, v) :: rest, k => if k2 = k then some v else lookupKey rest k

/-- Python `k in d`. -/
def hasKey {α : Type} (d : List (String × α)) (k : String) : Bool :=
  (lookupKey d k).isSome

/-- Python `d.pop(k)`, state part: the dict with key `k` removed
(a dict holds each key at most once; removing all occurrences coincides
with removing the one occurrence on well-formed dicts). -/
def eraseKey {α : Type} : List (String × α) → String → List (String × α)
  | [], _ => []
  | (k2, v) :: rest, k => if k2 = k then eraseKey rest k else (k2, v) :: eraseKey rest k

/-- Overwrite an entry when its key is `k`, used by `setKey`. -/
def setEntry {α : Type} (k : String) (v : α) (kv : String × α) : String × α :=
  if kv.1 = k then (k, v) else kv

/-- Python `d[k] = v`: overwrite in place if the key exists, else append. -/
def setKey {α : Type} (d : List (String × α)) (k : String) (v : α) : List (String × α) :=
  if hasKey d k then d.map (setEntry k v) else d ++ [(k, v)]

/-- Keys are pairwise distinct, as in a Python dict. -/
def keysNodup {α : Type} : List (String × α) → Bool
  | [] => true
  | (k, _) :: rest => !hasKey rest k && keysNodup rest

/-- Python `{k: v for k, v in l.items() if v is not None}` over a dict whose
values are optional: keep the entries whose value is present. -/
def filterNone : List (String × Option Toml) → Dict
  | [] => []
  | (k, some v) :: rest => (k, v) :: filterNone rest
  | (_, none) :: rest => filterNone rest

/-- Python `acc.update(u)` where `u` is a dict of (non-null) TOML values:
set each entry of `u` in order. -/
def updateDict (acc : List (String × Option Toml)) (u : Dict) : List (String × Option Toml) :=
  u.foldl (fun a kv => setKey a kv.1 (some kv.2)) acc

mutual

/-- Python `==` between TOML values: scalars by value, arrays pointwise,
tables by key/value equality with insertion order ignored. -/
def Toml.eqv : Toml → Toml → Bool
  | .str a, .str b => a == b
  | .int a, .int b => a == b
  | .bool a, .bool b => a == b
  | .arr xs, .arr ys => Toml.eqvL xs ys
  | .table a, .table b => Toml.keysSub a b && Toml.keysSub b a && Toml.eqvT a b
  | _, _ => false

/-- Pointwise `Toml.eqv` on lists of equal length. -/
def Toml.eqvL : List Toml → List Toml → Bool
  | [], [] => true
  | x :: xs, y :: ys => Toml.eqv x y && Toml.eqvL xs ys
  | _, _ => false

/-- Every entry of the first table matches the second table's value at that key. -/
def Toml.eqvT : List (String × Toml) → List (String × Toml) → Bool
  | [], _ => true
  | (k, v) :: rest, b =>
    (match lookupKey b k with
     | some w => Toml.eqv v w
     | none => false) && Toml.eqvT rest b

/-- Every key of the first table occurs in the second. -/
def Toml.keysSub : List (String × Toml) → List (String × Toml) → Bool
  | [], _ => true
  | (k, _) :: rest, b => hasKey b k && Toml.keysSub rest b

end

mutual

/-- Structural equality test on trees, used only to decide propositional
equality of concrete trees. -/
def Toml.beq : Toml → Toml → Bool
  | .str a, .str b => a == b
  | .int a, .int b => a == b
  | .bool a, .bool b => a == b
  | .arr xs, .arr ys => Toml.beqL xs ys
  | .table a, .table b => Toml.beqT a b
  | _, _ => false

/-- Structural equality test on lists of trees. -/
def Toml.beqL : List Toml → List Toml → Bool
  | [], [] => true
  | x :: xs, y :: ys => Toml.beq x y && Toml.beqL xs ys
  | _, _ => false

/-- Structural equality test on tables, entries in order. -/
def Toml.beqT : List (String × Toml) → List (String × Toml) → Bool
  | [], [] => true
  | (k1, v1) :: xs, (k2, v2) :: ys => k1 == k2 && Toml.beq v1 v2 && Toml.beqT xs ys
  | _, _ => false

end

mutual

theorem Toml.beq_iff : ∀ a b : Toml, Toml.beq a b = true ↔ a = b
  | .str _, .str _ => by simp [Toml.beq]
  | .int _, .int _ => by simp [Toml.beq]
  | .bool _, .bool _ => by simp [Toml.beq]
  | .arr xs, .arr ys => by simp [Toml.beq, Toml.beqL_iff xs ys]
  | .table a, .table b => by simp [Toml.beq, Toml.beqT_iff a b]
  | .str _, .int _ | .str _, .bool _ | .str _, .arr _ | .str _, .table _
  | .int _, .str _ | .int _, .bool _ | .int _, .arr _ | .int _, .table _
  | .bool _, .str _ | .bool _, .int _ | .bool _, .arr _ | .bool _, .table _
  | .arr _, .str _ | .arr _, .int _ | .arr _, .bool _ | .arr _, .table _
  | .table _, .str _ | .table _, .int _ | .table _, .bool _ | .table _, .arr _ =>
    by simp [Toml.beq]

theorem Toml.beqL_iff : ∀ xs ys : List Toml, Toml.beqL xs ys = true ↔ xs = ys
  | [], [] => by simp [Toml.beqL]
  | x :: xs, y :: ys => by
    simp [Toml.beqL, Toml.beq_iff x y, Toml.beqL_iff xs ys]
  | [], _ :: _ => by simp [Toml.beqL]
  | _ :: _, [] => by simp [Toml.beqL]

theorem Toml.beqT_iff : ∀ xs ys : List (String × Toml), Toml.beqT xs ys = true ↔ xs = ys
  | [], [] => by simp [Toml.beqT]
  | (k1, v1) :: xs, (k2, v2) :: ys => by
    simp [Toml.beqT, Toml.beq_iff v1 v2, Toml.beqT_iff xs ys, and_assoc]
  | [], _ :: _ => by simp [Toml.beqT]
  | _ :: _, [] => by simp [Toml.beqT]

end

instance : DecidableEq Toml := fun a b => decidable_of_iff _ (Toml.beq_iff a b)

/-- Key/value equality of two decoded tables, as Python `==` on dicts. -/
def dictEqv (a b : Dict) : Bool :=
  Toml.eqv (.table a) (.table b)

mutual

/-- Well-formedness of a decoded tree: every table has pairwise distinct
keys, recursively.  Every tree produced by a TOML decoder satisfies this,
since Python dicts cannot hold a key twice. -/
def Toml.wf : Toml → Bool
  | .str _ => true
  | .int _ => true
  | .bool _ => true
  | .arr xs => Toml.wfL xs
  | .table a => keysNodup a && Toml.wfT a

/-- All members of a list of values are well-formed. -/
def Toml.wfL : List Toml → Bool
  | [] => true
  | x :: xs => Toml.wf x && Toml.wfL xs

/-- All values of a table are well-formed. -/
def Toml.wfT : List (String × Toml) → Bool
  | [] => true
  | (_, v) :: rest => Toml.wf v && Toml.wfT rest

end

/-- Well-formedness of a decoded table. -/
def dictWf (d : Dict) : Bool :=
  Toml.wf (.table d)

/-- Errors raised by the manifest model: `keyError k` for a `pop` on a missing
required key, `typeError` for shape errors (a section value that is not a
table, or `Bin(**x)` with keyword arguments other than exactly `name` and
`path`), and `classError` for the structural-validity error the strict
file-loading entry point raises when neither `package` nor `workspace` is
present. -/
inductive ManifestError where
  | keyError (k : String)
  | typeError
  | classError
deriving DecidableEq

/-- Python tuple unpacking `key, value = e` of one dict-update sequence
element, as `dict(...)` performs on each element of an iterable argument.
A two-element list unpacks into its elements; a two-character string into
its two characters (each a one-character string); a two-entry dict into its
two keys.  An element that is not iterable raises a TypeError and one that
does not unpack into exactly two items raises a ValueError; both land in the
`typeError` shape-error bucket here.  An unpacked key that is a list or a
dict raises an unhashable-type TypeError.  A key that is an int or a bool
actually succeeds in Python and builds a dict with a non-string key; such a
dict lies outside the string-keyed tables of this model (TOML tables are
string-keyed and the TOML writer rejects non-string keys when the document
is saved), so the model stops with the same error bucket there — no claim
quantifies over such trees. -/
def pairOf : Toml → Except ManifestError (String × Toml)
  | .arr [k, w] =>
    match k with
    | .str s => .ok (s, w)
    | _ => .error .typeError
  | .arr _ => .error .typeError
  | .str s =>
    match s.toList with
    | [c1, c2] => .ok (String.mk [c1], .str (String.mk [c2]))
    | _ => .error .typeError
  | .table kvs =>
    match kvs with
    | [(k1, _), (k2, _)] => .ok (k1, .str k2)
    | _ => .error .typeError
  | _ => .error .typeError

/-- Consume a dict-update sequence: each element unpacks into a key/value
pair and is assigned with `d[k] = v`, later pairs overwriting earlier
keys in place. -/
def dictOfPairs (acc : Dict) : List Toml → Except ManifestError Dict
  | [] => .ok acc
  | e :: rest =>
    match pairOf e with
    | .error err => .error err
    | .ok (k, v) => dictOfPairs (setKey acc k v) rest

/-- Python `dict(v)` on a decoded value, the clone-and-coerce at the top of
every section parser (`cloned = dict(json)`).  A dict is shallow-copied; a
list is consumed as a sequence of key/value pairs; a string iterates into
its characters, so only the empty string yields a dict (an empty one) while
any other string fails on its first one-character element; ints and bools
are not iterable and raise a TypeError. -/
def dictOf : Toml → Except ManifestError Dict
  | .table kvs => .ok kvs
  | .arr xs => dictOfPairs [] xs
  | .str s => if s.isEmpty then .ok [] else .error .typeError
  | _ => .error .typeError

/-- The `Bin` dataclass: a binary target with `name` and `path`.  The Python
runtime does not check the annotated field types, so the fields hold whatever
decoded values were supplied. -/
structure Bin where
  name : Toml
  path : Toml

/-- Python `Bin(**x)`: keyword construction from a dict.  It succeeds exactly
when the keys of `x` are `name` and `path`, both present; a missing required
argument or an unexpected keyword raises a TypeError. -/
def Bin.ofKwargs (x : Dict) : Except ManifestError Bin :=
  if x.all (fun kv => kv.1 = "name" || kv.1 = "path") then
    match lookupKey x "name", lookupKey x "path" with
    | some n, some p => .ok ⟨n, p⟩
    | _, _ => .error .typeError
  else .error .typeError

/-- Serialization of a binary target: `{"name": self.name, "path": self.path}`. -/
def Bin.to_json (b : Bin) : Dict :=
  [("name", b.name), ("path", b.path)]

/-- The `Package` dataclass: `name`, optional `version` and `edition`, and the
`unhandled` mapping of every other key of the raw section. -/
structure Package where
  name : Toml
  version : Option Toml
  edition : Option Toml
  unhandled : Option Dict

/-- Parse a raw `package` section: clone it, pop `name` (required; a missing
key raises a KeyError), pop `version` and `edition` with default None, and
keep the remaining mapping as `unhandled`. -/
def Package.from_json (json : Dict) : Except ManifestError Package :=
  match lookupKey json "name" with
  | none => .error (.keyError "name")
  | some name =>
    let cloned := eraseKey json "name"
    let version := lookupKey cloned "version"
    let cloned := eraseKey cloned "version"
    let edition := lookupKey cloned "edition"
    let cloned := eraseKey cloned "edition"
    .ok ⟨name, version, edition, some cloned⟩

/-- Serialize a package: start from the dict of the known fields other than
`unhandled` (in field order `name`, `version`, `edition`), update it with the
`unhandled` entries, and drop entries whose value is None. -/
def Package.to_json (p : Package) : Dict :=
  let values : List (String × Option Toml) :=
    [("name", some p.name), ("version", p.version), ("edition", p.edition)]
  let values :=
    match p.unhandled with
    | some u => updateDict values u
    | none => values
  filterNone values

/-- The `WorkspacePackage` dataclass: required `version` plus `unhandled`. -/
structure WorkspacePackage where
  version : Toml
  unhandled : Option Dict

/-- Parse a raw `workspace.package` section: clone, pop the required
`version`, keep the rest as `unhandled`. -/
def WorkspacePackage.from_json (json : Dict) : Except ManifestError WorkspacePackage :=
  match lookupKey json "version" with
  | none => .error (.keyError "version")
  | some version => .ok ⟨version, some (eraseKey json "version")⟩

/-- Serialize a workspace package: the `version` field updated with the
`unhandled` entries, None values dropped. -/
def WorkspacePackage.to_json (wp : WorkspacePackage) : Dict :=
  let values : List (String × Option Toml) := [("version", some wp.version)]
  let values :=
    match wp.unhandled with
    | some u => updateDict values u
    | none => values
  filterNone values

/-- The `Workspace` dataclass: optional `package`, optional `members`, and
the `unhandled` mapping.  The Python runtime does not check that the popped
`members` value is a list of strings, so the field holds the raw value. -/
structure Workspace where
  package : Option WorkspacePackage
  members : Option Toml
  unhandled : Option Dict

/-- Parse a raw `workspace` section: clone, pop `package` if present and
hand the popped value to `WorkspacePackage.from_json`, whose own
`dict(json)` clone coerces it (`dictOf`); pop `members` if present; keep
the remaining mapping as `unhandled`. -/
def Workspace.from_json (json : Dict) : Except ManifestError Workspace :=
  match lookupKey json "package" with
  | some pv =>
    match dictOf pv with
    | .error e => .error e
    | .ok t =>
      match WorkspacePackage.from_json t with
      | .error e => .error e
      | .ok wp =>
        let cloned := eraseKey json "package"
        match lookupKey cloned "members" with
        | some v => .ok ⟨some wp, some v, some (eraseKey cloned "members")⟩
        | none => .ok ⟨some wp, none, some cloned⟩
  | none =>
    match lookupKey json "members" with
    | some v => .ok ⟨none, some v, some (eraseKey json "members")⟩
    | none => .ok ⟨none, none, some json⟩

/-- Serialize a workspace: a dict whose only rendered key is `package`
(None when the typed field is absent), updated with the `unhandled` entries,
None values dropped.  The `members` field is not emitted. -/
def Workspace.to_json (w : Workspace) : Dict :=
  let values : List (String × Option Toml) :=
    [("package", (w.package.map (fun p => Toml.table p.to_json) : Option Toml))]
  let values :=
    match w.unhandled with
    | some u => updateDict values u
    | none => values
  filterNone values

/-- The `Dependencies` dataclass: the dependency table kept as an opaque
mapping. -/
structure Dependencies where
  data : Dict

/-- Parse a raw `dependencies` section: clone it and keep it whole. -/
def Dependencies.from_json (json : Dict) : Dependencies :=
  ⟨json⟩

/-- Serialize the dependency table: the stored mapping itself. -/
def Dependencies.to_json (d : Dependencies) : Dict :=
  d.data

/-- The `CargoManifest` dataclass: the source path, the full raw tree, and
the typed views of the recognized sections. -/
structure CargoManifest where
  _path : String
  _data : Dict
  package : Option Package
  workspace : Option Workspace
  dependencies : Option Dependencies
  bin : List Bin

deriving instance DecidableEq for Bin

deriving instance DecidableEq for Package

deriving instance DecidableEq for WorkspacePackage

deriving instance DecidableEq for Workspace

deriving instance DecidableEq for Dependencies

deriving instance DecidableEq for CargoManifest

/-- Python `[Bin(**x) for x in xs]`: each array entry must be a dict (a
non-dict cannot be unpacked by `**` and raises a TypeError) and is passed to
the `Bin` constructor; the first failure aborts the parse. -/
def parseBins : List Toml → Except ManifestError (List Bin)
  | [] => .ok []
  | .table x :: rest =>
    match Bin.ofKwargs x with
    | .error e => .error e
    | .ok b =>
      match parseBins rest with
      | .error e => .error e
      | .ok bs => .ok (b :: bs)
  | _ :: _ => .error .typeError

/-- The constructor argument
`Package.from_json(data["package"]) if "package" in data else None`
of `CargoManifest.of`.  The `cloned = dict(json)` at the top of
`Package.from_json` both copies and coerces the raw value: the model
performs that step here (`dictOf`) and hands the resulting dict to
`from_json`, which pops the known keys from it. -/
def packageArg (data : Dict) : Except ManifestError (Option Package) :=
  match lookupKey data "package" with
  | some pv =>
    match dictOf pv with
    | .error e => .error e
    | .ok t =>
      match Package.from_json t with
      | .error e => .error e
      | .ok p => .ok (some p)
  | none => .ok none

/-- The constructor argument
`Workspace.from_json(data["workspace"]) if "workspace" in data else None`
of `CargoManifest.of`, with the clone-and-coerce `dict(json)` of
`Workspace.from_json` performed here as in `packageArg`. -/
def workspaceArg (data : Dict) : Except ManifestError (Option Workspace) :=
  match lookupKey data "workspace" with
  | some pv =>
    match dictOf pv with
    | .error e => .error e
    | .ok t =>
      match Workspace.from_json t with
      | .error e => .error e
      | .ok w => .ok (some w)
  | none => .ok none

/-- The constructor argument
`Dependencies.from_json(data["dependencies"]) if "dependencies" in data else None`
of `CargoManifest.of`, with the clone-and-coerce `dict(json)` of
`Dependencies.from_json` performed here as in `packageArg`. -/
def dependenciesArg (data : Dict) : Except ManifestError (Option Dependencies) :=
  match lookupKey data "dependencies" with
  | some pv =>
    match dictOf pv with
    | .error e => .error e
    | .ok t => .ok (some (Dependencies.from_json t))
  | none => .ok none

/-- The constructor argument `[Bin(**x) for x in data.get("bin", [])]` of
`CargoManifest.of`.  An array iterates into its entries; a string iterates
into its characters and a dict into its keys, so the empty string and the
empty dict yield an empty bin list while any non-empty one fails at
`Bin(**x)` because a one-character string or a key string is not a mapping;
ints and bools are not iterable. -/
def binArg (data : Dict) : Except ManifestError (List Bin) :=
  match lookupKey data "bin" with
  | some (.arr xs) => parseBins xs
  | some (.str s) => if s.isEmpty then .ok [] else .error .typeError
  | some (.table kvs) => if kvs.isEmpty then .ok [] else .error .typeError
  | some _ => .error .typeError
  | none => .ok []

/-- The permissive construct-from-tree entry point `CargoManifest.of`: parse
each recognized section if present (each section value is cloned and coerced
by the `dict(...)` at the top of its parser), and the `bin` value if present
(`data.get("bin", [])` is iterated into keyword unpackings).  Sections
are parsed in constructor-argument order: `package`, `workspace`,
`dependencies`, `bin`. -/
def CargoManifest.of (path : String) (data : Dict) : Except ManifestError CargoManifest :=
  match packageArg data with
  | .error e => .error e
  | .ok package =>
    match workspaceArg data with
    | .error e => .error e
    | .ok workspace =>
      match dependenciesArg data with
      | .error e => .error e
      | .ok dependencies =>
        match binArg data with
        | .error e => .error e
        | .ok bin => .ok ⟨path, data, package, workspace, dependencies, bin⟩

/-- The strict load-from-file entry point `CargoManifest.read`.  File IO and
TOML text decoding are external; `read` receives the decoded tree, constructs
the manifest with `of`, and raises the structural-validity error when neither
`package` nor `workspace` was present. -/
def CargoManifest.read (path : String) (data : Dict) : Except ManifestError CargoManifest :=
  match CargoManifest.of path data with
  | .error e => .error e
  | .ok ret =>
    if ret.package.isNone && ret.workspace.isNone then .error .classError
    else .ok ret

/-- Serialize a manifest: start from a copy of the raw tree; set `bin` to the
rendered targets when the list is non-empty and remove the key entirely when
it is empty; then overwrite `package`, `workspace` and `dependencies` with
their rendered forms when the typed view is present. -/
def CargoManifest.to_json (m : CargoManifest) : Dict :=
  let result := m._data
  let result :=
    if m.bin.isEmpty then eraseKey result "bin"
    else setKey result "bin" (.arr (m.bin.map (fun b => Toml.table b.to_json)))
  let result :=
    match m.package with
    | some p => setKey result "package" (.table p.to_json)
    | none => result
  let result :=
    match m.workspace with
    | some w => setKey result "workspace" (.table w.to_json)
    | none => result
  match m.dependencies with
  | some d => setKey result "dependencies" (.table d.to_json)
  | none => result

/-- The loop body of `CargoBumpVersionTask._push_version_to_path_deps`: a
dependency specification that is a dict containing a `path` key gets
`version` and `registry` injected (in that order); every other specification
is left as it is. -/
def bumpDep (version registry_alias : String) : Toml → Toml
  | .table t =>
    if hasKey t "path" then
      .table (setKey (setKey t "version" (.str version)) "registry" (.str registry_alias))
    else .table t
  | d => d

/-- The task method `_push_version_to_path_deps`: when the manifest has a
dependency table, rewrite each entry in place with `bumpDep`. -/
def push_version_to_path_deps (manifest : CargoManifest) (version registry_alias : String) :
    CargoManifest :=
  match manifest.dependencies with
  | some deps =>
    { manifest with
      dependencies := some ⟨deps.data.map (fun kv => (kv.1, bumpDep version registry_alias kv.2))⟩ }
  | none => manifest

/-- The manifest mutation performed by `_get_updated_cargo_toml`: if there is
no package section the manifest is returned unchanged; otherwise set the
package version, synchronize the workspace package version when one exists,
and, when a registry was supplied, push the version and the registry alias
into the path dependencies.  (The registry alias is looked up from the
project's registry table by the task; that table is an external collaborator,
so the alias itself is the parameter here.) -/
def bump_manifest (manifest : CargoManifest) (version : String) (registry : Option String) :
    CargoManifest :=
  match manifest.package with
  | none => manifest
  | some pkg =>
    let manifest := { manifest with package := some { pkg with version := some (.str version) } }
    let manifest :=
      match manifest.workspace with
      | some ws =>
        match ws.package with
        | some wsp =>
          { manifest with
            workspace := some { ws with package := some { wsp with version := .str version } } }
        | none => manifest
      | none => manifest
    match registry with
    | some regAlias => push_version_to_path_deps manifest version regAlias
    | none => manifest

/-- The task method `_get_updated_cargo_toml` at tree level: read the
manifest from the decoded tree, apply the bump, and serialize.  The external
TOML encoder then renders the returned tree to text. -/
def get_updated_cargo_toml (data : Dict) (version : String) (registry : Option String) :
    Except ManifestError Dict :=
  match CargoManifest.read "Cargo.toml" data with
  | .error e => .error e
  | .ok manifest => .ok (bump_manifest manifest version registry).to_json

/-! ## Association-list lemmas -/

theorem lookupKey_append {α : Type} (a b : List (String × α)) (k : String) :
    lookupKey (a ++ b) k =
      match lookupKey a k with
      | some v => some v
      | none => lookupKey b k := by
  induction a with
  | nil => simp [lookupKey]
  | cons kv rest ih =>
    obtain ⟨k2, v⟩ := kv
    by_cases h : k2 = k <;> simp [lookupKey, h, ih]

theorem lookupKey_eraseKey_self {α : Type} (d : List (String × α)) (k : String) :
    lookupKey (eraseKey d k) k = none := by
  induction d with
  | nil => simp [eraseKey, lookupKey]
  | cons kv rest ih =>
    obtain ⟨k2, v⟩ := kv
    by_cases h : k2 = k <;> simp [eraseKey, lookupKey, h, ih]

theorem lookupKey_eraseKey_ne {α : Type} (d : List (String × α)) (k k2 : String)
    (h : k2 ≠ k) : lookupKey (eraseKey d k) k2 = lookupKey d k2 := by
  have hne : k ≠ k2 := fun hh => h hh.symm
  induction d with
  | nil => simp [eraseKey]
  | cons kv rest ih =>
    obtain ⟨k3, v⟩ := kv
    by_cases h3 : k3 = k
    · subst h3
      simp [eraseKey, lookupKey, hne, ih]
    · simp [eraseKey, lookupKey, h3, ih]

theorem hasKey_eraseKey_self {α : Type} (d : List (String × α)) (k : String) :
    hasKey (eraseKey d k) k = false := by
  simp [hasKey, lookupKey_eraseKey_self]

theorem hasKey_eraseKey_ne {α : Type} (d : List (String × α)) (k k2 : String)
    (h : k2 ≠ k) : hasKey (eraseKey d k) k2 = hasKey d k2 := by
  simp [hasKey, lookupKey_eraseKey_ne d k k2 h]

theorem eraseKey_of_not_has {α : Type} (d : List (String × α)) (k : String)
    (h : hasKey d k = false) : eraseKey d k = d := by
  induction d with
  | nil => simp [eraseKey]
  | cons kv rest ih =>
    obtain ⟨k2, v⟩ := kv
    by_cases h2 : k2 = k
    · subst h2
      simp [hasKey, lookupKey] at h
    · have hrest : hasKey rest k = false := by
        simpa [hasKey, lookupKey, h2] using h
      simp [eraseKey, h2, ih hrest]

theorem hasKey_iff_mem_keys {α : Type} (d : List (String × α)) (k : String) :
    hasKey d k = true ↔ k ∈ d.map Prod.fst := by
  induction d with
  | nil => simp [hasKey, lookupKey]
  | cons kv rest ih =>
    obtain ⟨k2, v⟩ := kv
    by_cases h : k2 = k
    · subst h
      simp [hasKey, lookupKey]
    · have hne2 : k ≠ k2 := fun hh => h hh.symm
      simp only [hasKey, lookupKey, List.map_cons, List.mem_cons, if_neg h]
      simp only [hasKey] at ih
      simp [ih, hne2]

theorem hasKey_false_iff {α : Type} (d : List (String × α)) (k : String) :
    hasKey d k = false ↔ k ∉ d.map Prod.fst := by
  rw [← hasKey_iff_mem_keys]
  simp

theorem keysNodup_iff {α : Type} (d : List (String × α)) :
    keysNodup d = true ↔ (d.map Prod.fst).Nodup := by
  induction d with
  | nil => simp [keysNodup]
  | cons kv rest ih =>
    obtain ⟨k2, v⟩ := kv
    simp [keysNodup, ih, List.nodup_cons, hasKey_false_iff]

theorem keys_eraseKey {α : Type} (d : List (String × α)) (k : String) :
    (eraseKey d k).map Prod.fst = (d.map Prod.fst).filter (fun k2 => !(k2 == k)) := by
  induction d with
  | nil => simp [eraseKey]
  | cons kv rest ih =>
    obtain ⟨k2, v⟩ := kv
    by_cases h2 : k2 = k <;> simp [eraseKey, h2, ih, List.filter_cons]

theorem keysNodup_eraseKey {α : Type} (d : List (String × α)) (k : String)
    (h : keysNodup d = true) : keysNodup (eraseKey d k) = true := by
  rw [keysNodup_iff] at h ⊢
  rw [keys_eraseKey]
  exact h.filter _

theorem setEntry_hit {α : Type} (k : String) (v : α) (k3 : String) (w : α)
    (h : k3 = k) : setEntry k v (k3, w) = (k, v) := by
  simp [setEntry, h]

theorem setEntry_miss {α : Type} (k : String) (v : α) (k3 : String) (w : α)
    (h : ¬k3 = k) : setEntry k v (k3, w) = (k3, w) := by
  simp [setEntry, h]

theorem lookupKey_setMap {α : Type} (d : List (String × α)) (k : String) (v : α)
    (k2 : String) (h : k2 ≠ k) :
    lookupKey (d.map (setEntry k v)) k2 = lookupKey d k2 := by
  induction d with
  | nil => simp [lookupKey]
  | cons kv rest ih =>
    obtain ⟨k3, w⟩ := kv
    by_cases h3 : k3 = k
    · subst h3
      have hne : k3 ≠ k2 := fun hh => h hh.symm
      rw [List.map_cons, setEntry_hit _ _ _ _ rfl]
      simp [lookupKey, hne, ih]
    · rw [List.map_cons, setEntry_miss _ _ _ _ h3]
      simp [lookupKey, ih]

theorem lookupKey_setMap_self {α : Type} (d : List (String × α)) (k : String) (v : α)
    (h : hasKey d k = true) :
    lookupKey (d.map (setEntry k v)) k = some v := by
  induction d with
  | nil => simp [hasKey, lookupKey] at h
  | cons kv rest ih =>
    obtain ⟨k3, w⟩ := kv
    by_cases h3 : k3 = k
    · subst h3
      rw [List.map_cons, setEntry_hit _ _ _ _ rfl]
      simp [lookupKey]
    · have hrest : hasKey rest k = true := by
        simpa [hasKey, lookupKey, h3] using h
      rw [List.map_cons, setEntry_miss _ _ _ _ h3]
      simp [lookupKey, h3, ih hrest]

theorem lookupKey_setKey_self {α : Type} (d : List (String × α)) (k : String) (v : α) :
    lookupKey (setKey d k v) k = some v := by
  unfold setKey
  by_cases h : hasKey d k = true
  · simp [h, lookupKey_setMap_self d k v h]
  · have hl : lookupKey d k = none := by
      cases hc : lookupKey d k with
      | none => rfl
      | some w => simp [hasKey, hc] at h
    simp [h, lookupKey_append, hl, lookupKey]

theorem lookupKey_setKey_ne {α : Type} (d : List (String × α)) (k : String) (v : α)
    (k2 : String) (h : k2 ≠ k) : lookupKey (setKey d k v) k2 = lookupKey d k2 := by
  unfold setKey
  by_cases hh : hasKey d k = true
  · simp [hh, lookupKey_setMap d k v k2 h]
  · have hne : k ≠ k2 := fun heq => h heq.symm
    rw [if_neg hh, lookupKey_append]
    cases hl : lookupKey d k2 with
    | some w => rfl
    | none => simp [lookupKey, hne]

theorem hasKey_setKey_self {α : Type} (d : List (String × α)) (k : String) (v : α) :
    hasKey (setKey d k v) k = true := by
  simp [hasKey, lookupKey_setKey_self]

theorem hasKey_setKey_ne {α : Type} (d : List (String × α)) (k : String) (v : α)
    (k2 : String) (h : k2 ≠ k) : hasKey (setKey d k v) k2 = hasKey d k2 := by
  simp [hasKey, lookupKey_setKey_ne d k v k2 h]

theorem keys_setKey {α : Type} (d : List (String × α)) (k : String) (v : α) :
    (setKey d k v).map Prod.fst =
      if hasKey d k then d.map Prod.fst else d.map Prod.fst ++ [k] := by
  unfold setKey
  by_cases h : hasKey d k = true
  · rw [if_pos h, if_pos h, List.map_map]
    refine List.map_congr_left ?_
    intro a _
    obtain ⟨a1, a2⟩ := a
    by_cases h2 : a1 = k
    · rw [Function.comp_apply, setEntry_hit _ _ _ _ h2, h2]
    · rw [Function.comp_apply, setEntry_miss _ _ _ _ h2]
  · rw [if_neg h, if_neg h]
    simp

theorem keysNodup_setKey {α : Type} (d : List (String × α)) (k : String) (v : α)
    (h : keysNodup d = true) : keysNodup (setKey d k v) = true := by
  rw [keysNodup_iff] at h ⊢
  rw [keys_setKey]
  by_cases hh : hasKey d k = true
  · simp [hh, h]
  · have hmem : k ∉ d.map Prod.fst := by
      rw [← hasKey_false_iff]
      simp at hh
      exact hh
    simp [hh, List.nodup_append, h, hmem]

/-! ## filterNone and updateDict lemmas -/

theorem lookupKey_filterNone (l : List (String × Option Toml)) (k : String)
    (h : keysNodup l = true) :
    lookupKey (filterNone l) k = (lookupKey l k).join := by
  induction l with
  | nil => simp [filterNone, lookupKey]
  | cons kv rest ih =>
    obtain ⟨k2, ov⟩ := kv
    have hh : hasKey rest k2 = false ∧ keysNodup rest = true := by
      simpa [keysNodup] using h
    by_cases h2 : k2 = k
    · subst h2
      cases ov with
      | some v => simp [filterNone, lookupKey]
      | none =>
        have hrest : lookupKey rest k2 = none := by
          have := hh.1
          simp [hasKey] at this
          cases hc : lookupKey rest k2 with
          | none => rfl
          | some w => simp [hc] at this
        simp [filterNone, lookupKey, ih hh.2, hrest]
    · cases ov with
      | some v => simp [filterNone, lookupKey, h2, ih hh.2]
      | none => simp [filterNone, lookupKey, h2, ih hh.2]

theorem hasKey_filterNone_le (l : List (String × Option Toml)) (k : String)
    (h : hasKey (filterNone l) k = true) : hasKey l k = true := by
  induction l with
  | nil => simp [filterNone, hasKey, lookupKey] at h
  | cons kv rest ih =>
    obtain ⟨k2, ov⟩ := kv
    by_cases h2 : k2 = k
    · subst h2
      simp [hasKey, lookupKey]
    · cases ov with
      | some v =>
        simp only [filterNone, hasKey, lookupKey, if_neg h2] at h ⊢
        exact ih h
      | none =>
        simp only [filterNone, hasKey, lookupKey, if_neg h2] at h ⊢
        exact ih h

theorem keysNodup_filterNone (l : List (String × Option Toml))
    (h : keysNodup l = true) : keysNodup (filterNone l) = true := by
  induction l with
  | nil => simp [filterNone, keysNodup]
  | cons kv rest ih =>
    obtain ⟨k2, ov⟩ := kv
    have hh : hasKey rest k2 = false ∧ keysNodup rest = true := by
      simpa [keysNodup] using h
    cases ov with
    | some v =>
      have hfr : hasKey (filterNone rest) k2 = false := by
        cases hc : hasKey (filterNone rest) k2 with
        | false => rfl
        | true => rw [hasKey_filterNone_le rest k2 hc] at hh; simp at hh
      simp [filterNone, keysNodup, hfr, ih hh.2]
    | none => simp [filterNone, ih hh.2]

theorem lookupKey_updateDict (u : Dict) (acc : List (String × Option Toml)) (k : String)
    (hu : keysNodup u = true) :
    lookupKey (updateDict acc u) k =
      match lookupKey u k with
      | some v => some (some v)
      | none => lookupKey acc k := by
  induction u generalizing acc with
  | nil => simp [updateDict, lookupKey]
  | cons kv rest ih =>
    obtain ⟨k2, v⟩ := kv
    have hh : hasKey rest k2 = false ∧ keysNodup rest = true := by
      simpa [keysNodup] using hu
    have hstep : updateDict acc ((k2, v) :: rest) = updateDict (setKey acc k2 (some v)) rest := by
      simp [updateDict, List.foldl_cons]
    rw [hstep, ih (setKey acc k2 (some v)) hh.2]
    by_cases h2 : k2 = k
    · subst h2
      have hrest : lookupKey rest k2 = none := by
        have := hh.1
        simp [hasKey] at this
        cases hc : lookupKey rest k2 with
        | none => rfl
        | some w => simp [hc] at this
      simp [lookupKey, hrest, lookupKey_setKey_self]
    · simp [lookupKey, h2, lookupKey_setKey_ne acc k2 (some v) k (fun hh2 => h2 hh2.symm)]

theorem keysNodup_updateDict (u : Dict) (acc : List (String × Option Toml))
    (hacc : keysNodup acc = true) : keysNodup (updateDict acc u) = true := by
  induction u generalizing acc with
  | nil => simpa [updateDict]
  | cons kv rest ih =>
    obtain ⟨k2, v⟩ := kv
    have hstep : updateDict acc ((k2, v) :: rest) = updateDict (setKey acc k2 (some v)) rest := by
      simp [updateDict, List.foldl_cons]
    rw [hstep]
    exact ih _ (keysNodup_setKey acc k2 (some v) hacc)

/-! ## Lemmas about the equivalence and well-formedness of trees -/

theorem keysSub_of (a b : List (String × Toml))
    (h : ∀ k, hasKey a k = true → hasKey b k = true) : Toml.keysSub a b = true := by
  induction a with
  | nil => simp [Toml.keysSub]
  | cons kv rest ih =>
    obtain ⟨k, v⟩ := kv
    have hhead : hasKey b k = true := h k (by simp [hasKey, lookupKey])
    have htail : ∀ k2, hasKey rest k2 = true → hasKey b k2 = true := by
      intro k2 h2
      refine h k2 ?_
      by_cases he : k = k2 <;> simp [hasKey, lookupKey, he]
      simpa [hasKey] using h2
    simp [Toml.keysSub, hhead, ih htail]

theorem eqvT_of_lookup (a b : List (String × Toml)) (ha : keysNodup a = true)
    (h : ∀ k v, lookupKey a k = some v → ∃ w, lookupKey b k = some w ∧ Toml.eqv v w = true) :
    Toml.eqvT a b = true := by
  induction a with
  | nil => simp [Toml.eqvT]
  | cons kv rest ih =>
    obtain ⟨k, v⟩ := kv
    have hh : hasKey rest k = false ∧ keysNodup rest = true := by
      simpa [keysNodup] using ha
    obtain ⟨w, hw, hvw⟩ := h k v (by simp [lookupKey])
    have htail : ∀ k2 v2, lookupKey rest k2 = some v2 →
        ∃ w2, lookupKey b k2 = some w2 ∧ Toml.eqv v2 w2 = true := by
      intro k2 v2 h2
      have hne : k ≠ k2 := by
        intro he
        subst he
        have := hh.1
        simp [hasKey, h2] at this
      exact h k2 v2 (by simp [lookupKey, hne, h2])
    simp [Toml.eqvT, hw, hvw, ih hh.2 htail]

theorem wfT_lookup (d : List (String × Toml)) (k : String) (v : Toml)
    (hw : Toml.wfT d = true) (hl : lookupKey d k = some v) : Toml.wf v = true := by
  induction d with
  | nil => simp [lookupKey] at hl
  | cons kv rest ih =>
    obtain ⟨k2, w⟩ := kv
    have hh : Toml.wf w = true ∧ Toml.wfT rest = true := by
      simpa [Toml.wfT] using hw
    by_cases h2 : k2 = k
    · subst h2
      simp [lookupKey] at hl
      exact hl ▸ hh.1
    · simp [lookupKey, h2] at hl
      exact ih hh.2 hl

theorem keysSub_self (a : List (String × Toml)) : Toml.keysSub a a = true :=
  keysSub_of a a (fun _ h => h)

mutual

theorem Toml.eqv_refl : ∀ t : Toml, Toml.wf t = true → Toml.eqv t t = true
  | .str s, _ => by simp [Toml.eqv]
  | .int n, _ => by simp [Toml.eqv]
  | .bool b, _ => by simp [Toml.eqv]
  | .arr xs, h => by
    rw [Toml.eqv]
    exact Toml.eqvL_refl xs (by simpa [Toml.wf] using h)
  | .table a, h => by
    have h2 : keysNodup a = true ∧ Toml.wfT a = true := by
      simpa [Toml.wf] using h
    rw [Toml.eqv]
    simp [keysSub_self a]
    exact Toml.eqvT_refl_aux a a h2.1 h2.2 (fun _ _ hl => hl)

theorem Toml.eqvL_refl : ∀ xs : List Toml, Toml.wfL xs = true → Toml.eqvL xs xs = true
  | [], _ => by simp [Toml.eqvL]
  | x :: xs, h => by
    have h2 : Toml.wf x = true ∧ Toml.wfL xs = true := by
      simpa [Toml.wfL] using h
    rw [Toml.eqvL]
    simp [Toml.eqv_refl x h2.1, Toml.eqvL_refl xs h2.2]

theorem Toml.eqvT_refl_aux : ∀ a b : List (String × Toml), keysNodup a = true →
    Toml.wfT a = true → (∀ k v, lookupKey a k = some v → lookupKey b k = some v) →
    Toml.eqvT a b = true
  | [], _, _, _, _ => by simp [Toml.eqvT]
  | (k, v) :: rest, b, hn, hw, h => by
    have hh : hasKey rest k = false ∧ keysNodup rest = true := by
      simpa [keysNodup] using hn
    have hw2 : Toml.wf v = true ∧ Toml.wfT rest = true := by
      simpa [Toml.wfT] using hw
    have hb : lookupKey b k = some v := h k v (by simp [lookupKey])
    have htail : ∀ k2 v2, lookupKey rest k2 = some v2 → lookupKey b k2 = some v2 := by
      intro k2 v2 h2
      have hne : k ≠ k2 := by
        intro he
        subst he
        have := hh.1
        simp [hasKey, h2] at this
      exact h k2 v2 (by simp [lookupKey, hne, h2])
    rw [Toml.eqvT]
    simp [hb, Toml.eqv_refl v hw2.1, Toml.eqvT_refl_aux rest b hh.2 hw2.2 htail]

end

/-- Two tables with the same key set whose values at each key are equivalent
are equivalent; the first table must have pairwise distinct keys. -/
theorem eqv_table_of_lookup (a b : List (String × Toml)) (ha : keysNodup a = true)
    (hkeys : ∀ k, hasKey a k = hasKey b k)
    (hval : ∀ k v w, lookupKey a k = some v → lookupKey b k = some w →
      Toml.eqv v w = true) :
    Toml.eqv (.table a) (.table b) = true := by
  rw [Toml.eqv]
  have hs1 : Toml.keysSub a b = true := keysSub_of a b (fun k h => (hkeys k) ▸ h)
  have hs2 : Toml.keysSub b a = true := keysSub_of b a (fun k h => (hkeys k) ▸ h)
  have ht : Toml.eqvT a b = true := by
    refine eqvT_of_lookup a b ha ?_
    intro k v hl
    have hb : hasKey b k = true := (hkeys k) ▸ (by simp [hasKey, hl])
    simp [hasKey] at hb
    obtain ⟨w, hw⟩ := Option.isSome_iff_exists.mp hb
    exact ⟨w, hw, hval k v w hl hw⟩
  simp [hs1, hs2, ht]

/-! ## Section-level round-trip lemmas -/

/-- Lookup in the known-fields/unhandled merge used by every serializer:
the unhandled entry wins when present, else the base field (a None base
field disappears from the output). -/
theorem lookupKey_render (base : List (String × Option Toml)) (u : Dict) (k : String)
    (hb : keysNodup base = true) (hu : keysNodup u = true) :
    lookupKey (filterNone (updateDict base u)) k =
      match lookupKey u k with
      | some v => some v
      | none => (lookupKey base k).join := by
  rw [lookupKey_filterNone _ _ (keysNodup_updateDict u base hb),
      lookupKey_updateDict u base k hu]
  cases lookupKey u k <;> simp

theorem keysNodup_render (base : List (String × Option Toml)) (u : Dict)
    (hb : keysNodup base = true) (hu : keysNodup u = true) :
    keysNodup (filterNone (updateDict base u)) = true :=
  keysNodup_filterNone _ (keysNodup_updateDict u base hb)

theorem pkg_from_json_ok (tp : Dict) (p : Package)
    (h : Package.from_json tp = .ok p) :
    ∃ nm, lookupKey tp "name" = some nm ∧
      p = ⟨nm, lookupKey tp "version", lookupKey tp "edition",
        some (eraseKey (eraseKey (eraseKey tp "name") "version") "edition")⟩ := by
  cases hn : lookupKey tp "name" with
  | none => simp [Package.from_json, hn] at h
  | some nm =>
    refine ⟨nm, rfl, ?_⟩
    have hv : lookupKey (eraseKey tp "name") "version" = lookupKey tp "version" :=
      lookupKey_eraseKey_ne tp "name" "version" (by decide)
    have he : lookupKey (eraseKey (eraseKey tp "name") "version") "edition"
        = lookupKey tp "edition" := by
      rw [lookupKey_eraseKey_ne _ "version" "edition" (by decide),
          lookupKey_eraseKey_ne _ "name" "edition" (by decide)]
    simp [Package.from_json, hn, hv, he] at h
    exact h.symm

theorem pkg_to_json_lookup (tp : Dict) (p : Package) (hn : keysNodup tp = true)
    (hok : Package.from_json tp = .ok p) (k : String) :
    lookupKey p.to_json k = lookupKey tp k := by
  obtain ⟨nm, hname, hp⟩ := pkg_from_json_ok tp p hok
  subst hp
  have e1 : ("version" : String) ≠ "name" := by decide
  have e2 : ("edition" : String) ≠ "name" := by decide
  have e3 : ("edition" : String) ≠ "version" := by decide
  have e4 : ("name" : String) ≠ "version" := by decide
  have e5 : ("name" : String) ≠ "edition" := by decide
  have e6 : ("version" : String) ≠ "edition" := by decide
  have hun : keysNodup (eraseKey (eraseKey (eraseKey tp "name") "version") "edition") = true :=
    keysNodup_eraseKey _ _ (keysNodup_eraseKey _ _ (keysNodup_eraseKey _ _ hn))
  have hbase : keysNodup [("name", some nm), ("version", lookupKey tp "version"),
      ("edition", lookupKey tp "edition")] = true := by
    simp [keysNodup, hasKey, lookupKey, e1, e2, e3]
  have hto : Package.to_json ⟨nm, lookupKey tp "version", lookupKey tp "edition",
      some (eraseKey (eraseKey (eraseKey tp "name") "version") "edition")⟩ =
      filterNone (updateDict [("name", some nm), ("version", lookupKey tp "version"),
        ("edition", lookupKey tp "edition")]
        (eraseKey (eraseKey (eraseKey tp "name") "version") "edition")) := rfl
  rw [hto, lookupKey_render _ _ k hbase hun]
  by_cases hk1 : k = "name"
  · subst hk1
    have hu1 : lookupKey (eraseKey (eraseKey (eraseKey tp "name") "version") "edition")
        "name" = none := by
      rw [lookupKey_eraseKey_ne _ "edition" "name" e2.symm,
          lookupKey_eraseKey_ne _ "version" "name" e1.symm,
          lookupKey_eraseKey_self]
    simp [hu1, lookupKey, hname]
  · by_cases hk2 : k = "version"
    · subst hk2
      have hu2 : lookupKey (eraseKey (eraseKey (eraseKey tp "name") "version") "edition")
          "version" = none := by
        rw [lookupKey_eraseKey_ne _ "edition" "version" e3.symm, lookupKey_eraseKey_self]
      simp [hu2, lookupKey, e4.symm]
    · by_cases hk3 : k = "edition"
      · subst hk3
        have hu3 : lookupKey (eraseKey (eraseKey (eraseKey tp "name") "version") "edition")
            "edition" = none := by
          rw [lookupKey_eraseKey_self]
        simp [hu3, lookupKey, e5.symm, e6.symm]
      · have hu4 : lookupKey (eraseKey (eraseKey (eraseKey tp "name") "version") "edition") k
            = lookupKey tp k := by
          rw [lookupKey_eraseKey_ne _ "edition" k hk3, lookupKey_eraseKey_ne _ "version" k hk2,
              lookupKey_eraseKey_ne _ "name" k hk1]
        rw [hu4]
        cases hc : lookupKey tp k with
        | some v => simp
        | none =>
          have hb1 : ("name" : String) ≠ k := fun hh => hk1 hh.symm
          have hb2 : ("version" : String) ≠ k := fun hh => hk2 hh.symm
          have hb3 : ("edition" : String) ≠ k := fun hh => hk3 hh.symm
          simp [lookupKey, hb1, hb2, hb3]

theorem wspkg_from_json_ok (twp : Dict) (wp : WorkspacePackage)
    (h : WorkspacePackage.from_json twp = .ok wp) :
    ∃ v, lookupKey twp "version" = some v ∧ wp = ⟨v, some (eraseKey twp "version")⟩ := by
  cases hv : lookupKey twp "version" with
  | none => simp [WorkspacePackage.from_json, hv] at h
  | some v =>
    refine ⟨v, rfl, ?_⟩
    simp [WorkspacePackage.from_json, hv] at h
    exact h.symm

theorem wspkg_to_json_lookup (twp : Dict) (wp : WorkspacePackage)
    (hn : keysNodup twp = true) (hok : WorkspacePackage.from_json twp = .ok wp)
    (k : String) : lookupKey wp.to_json k = lookupKey twp k := by
  obtain ⟨v, hver, hwp⟩ := wspkg_from_json_ok twp wp hok
  subst hwp
  have hun : keysNodup (eraseKey twp "version") = true := keysNodup_eraseKey _ _ hn
  have hbase : keysNodup [("version", (some v : Option Toml))] = true := by
    simp [keysNodup, hasKey, lookupKey]
  have hto : WorkspacePackage.to_json ⟨v, some (eraseKey twp "version")⟩ =
      filterNone (updateDict [("version", some v)] (eraseKey twp "version")) := rfl
  rw [hto, lookupKey_render _ _ k hbase hun]
  by_cases hk : k = "version"
  · subst hk
    simp [lookupKey_eraseKey_self, lookupKey, hver]
  · rw [lookupKey_eraseKey_ne _ "version" k hk]
    cases hc : lookupKey twp k with
    | some w => simp
    | none =>
      have hb : ("version" : String) ≠ k := fun hh => hk hh.symm
      simp [lookupKey, hb]

/-- Two tables whose lookups agree everywhere are equivalent (the second
table well-formed for reflexivity of the shared values). -/
theorem eqv_of_lookup_eq (a b : Dict) (ha : keysNodup a = true)
    (hwb : Toml.wfT b = true) (h : ∀ k, lookupKey a k = lookupKey b k) :
    Toml.eqv (.table a) (.table b) = true := by
  refine eqv_table_of_lookup a b ha (fun k => by simp [hasKey, h k]) ?_
  intro k v w hv hw
  rw [h k, hw] at hv
  cases hv
  exact Toml.eqv_refl v (wfT_lookup b k v hwb hw)

theorem pkg_to_json_nodup (tp : Dict) (p : Package) (hn : keysNodup tp = true)
    (hok : Package.from_json tp = .ok p) : keysNodup p.to_json = true := by
  obtain ⟨nm, hname, hp⟩ := pkg_from_json_ok tp p hok
  subst hp
  have e1 : ("version" : String) ≠ "name" := by decide
  have e2 : ("edition" : String) ≠ "name" := by decide
  have e3 : ("edition" : String) ≠ "version" := by decide
  refine keysNodup_render _ _ ?_
    (keysNodup_eraseKey _ _ (keysNodup_eraseKey _ _ (keysNodup_eraseKey _ _ hn)))
  simp [keysNodup, hasKey, lookupKey, e1, e2, e3]

theorem wspkg_to_json_nodup (twp : Dict) (wp : WorkspacePackage)
    (hn : keysNodup twp = true) (hok : WorkspacePackage.from_json twp = .ok wp) :
    keysNodup wp.to_json = true := by
  obtain ⟨v, hver, hwp⟩ := wspkg_from_json_ok twp wp hok
  subst hwp
  refine keysNodup_render _ _ ?_ (keysNodup_eraseKey _ _ hn)
  simp [keysNodup, hasKey, lookupKey]

/-- A parsed package serializes to a table equivalent to the raw section. -/
theorem pkg_to_json_eqv (tp : Dict) (p : Package) (hn : keysNodup tp = true)
    (hwf : Toml.wfT tp = true) (hok : Package.from_json tp = .ok p) :
    Toml.eqv (.table p.to_json) (.table tp) = true :=
  eqv_of_lookup_eq _ tp (pkg_to_json_nodup tp p hn hok) hwf
    (pkg_to_json_lookup tp p hn hok)

/-- A parsed workspace package serializes to a table equivalent to the raw
section. -/
theorem wspkg_to_json_eqv (twp : Dict) (wp : WorkspacePackage)
    (hn : keysNodup twp = true) (hwf : Toml.wfT twp = true)
    (hok : WorkspacePackage.from_json twp = .ok wp) :
    Toml.eqv (.table wp.to_json) (.table twp) = true :=
  eqv_of_lookup_eq _ twp (wspkg_to_json_nodup twp wp hn hok) hwf
    (wspkg_to_json_lookup twp wp hn hok)

theorem ws_from_json_ok (tw : Dict) (w : Workspace)
    (h : Workspace.from_json tw = .ok w) :
    (∃ pv twp wp, lookupKey tw "package" = some pv ∧
       dictOf pv = .ok twp ∧
       WorkspacePackage.from_json twp = .ok wp ∧
       w.package = some wp ∧
       w.members = lookupKey (eraseKey tw "package") "members" ∧
       w.unhandled = some (eraseKey (eraseKey tw "package") "members")) ∨
    (lookupKey tw "package" = none ∧ w.package = none ∧
       w.members = lookupKey tw "members" ∧
       w.unhandled = some (eraseKey tw "members")) := by
  cases hp : lookupKey tw "package" with
  | none =>
    right
    cases hm : lookupKey tw "members" with
    | some v =>
      simp only [Workspace.from_json, hp, hm, Except.ok.injEq] at h
      subst h
      exact ⟨rfl, rfl, rfl, rfl⟩
    | none =>
      simp only [Workspace.from_json, hp, hm, Except.ok.injEq] at h
      subst h
      have hnm : hasKey tw "members" = false := by simp [hasKey, hm]
      exact ⟨rfl, rfl, rfl, by rw [eraseKey_of_not_has tw "members" hnm]⟩
  | some pv =>
    cases hd : dictOf pv with
    | error e => simp [Workspace.from_json, hp, hd] at h
    | ok twp =>
      cases hwp : WorkspacePackage.from_json twp with
      | error e => simp [Workspace.from_json, hp, hd, hwp] at h
      | ok wp =>
        left
        refine ⟨pv, twp, wp, rfl, hd, hwp, ?_⟩
        cases hm : lookupKey (eraseKey tw "package") "members" with
        | some mv =>
          simp only [Workspace.from_json, hp, hd, hwp, hm, Except.ok.injEq] at h
          subst h
          exact ⟨rfl, rfl, rfl⟩
        | none =>
          simp only [Workspace.from_json, hp, hd, hwp, hm, Except.ok.injEq] at h
          subst h
          have hnm : hasKey (eraseKey tw "package") "members" = false := by
            simp [hasKey, hm]
          exact ⟨rfl, rfl, by rw [eraseKey_of_not_has _ "members" hnm]⟩

/-- A parsed workspace whose raw section has no `members` key serializes to
a table equivalent to the raw section. -/
theorem ws_to_json_eqv (tw : Dict) (w : Workspace)
    (hn : keysNodup tw = true) (hwf : Toml.wfT tw = true)
    (hpkt : ∀ pv, lookupKey tw "package" = some pv → ∃ tp, pv = Toml.table tp)
    (hmem : hasKey tw "members" = false)
    (hok : Workspace.from_json tw = .ok w) :
    Toml.eqv (.table w.to_json) (.table tw) = true := by
  have hmlook : lookupKey tw "members" = none := by
    cases hc : lookupKey tw "members" with
    | none => rfl
    | some v => simp [hasKey, hc] at hmem
  rcases ws_from_json_ok tw w hok with
    ⟨pv, twp, wp, hp, hd, hwp, hpk, hm, hu⟩ | ⟨hp, hpk, hm, hu⟩
  · -- package present
    obtain ⟨tp0, hpv⟩ := hpkt pv hp
    subst hpv
    simp only [dictOf, Except.ok.injEq] at hd
    rw [hd] at hp
    have hmem2 : hasKey (eraseKey tw "package") "members" = false := by
      rw [hasKey_eraseKey_ne tw "package" "members" (by decide)]
      exact hmem
    have hu2 : w.unhandled = some (eraseKey tw "package") := by
      rw [hu, eraseKey_of_not_has _ "members" hmem2]
    have hwtp : Toml.wf (.table twp) = true := wfT_lookup tw "package" _ hwf hp
    have hwtp2 : keysNodup twp = true ∧ Toml.wfT twp = true := by
      simpa [Toml.wf] using hwtp
    have hun : keysNodup (eraseKey tw "package") = true := keysNodup_eraseKey _ _ hn
    have hbase : keysNodup [("package", (some (Toml.table wp.to_json) : Option Toml))]
        = true := by simp [keysNodup, hasKey, lookupKey]
    have hto : w.to_json = filterNone (updateDict
        [("package", some (.table wp.to_json))] (eraseKey tw "package")) := by
      simp [Workspace.to_json, hpk, hu2]
    have hlook : ∀ k, lookupKey w.to_json k =
        match lookupKey (eraseKey tw "package") k with
        | some v => some v
        | none => (lookupKey [("package", (some (Toml.table wp.to_json) : Option Toml))] k).join :=
      fun k => by rw [hto, lookupKey_render _ _ k hbase hun]
    refine eqv_table_of_lookup _ tw ?_ ?_ ?_
    · rw [hto]
      exact keysNodup_render _ _ hbase hun
    · intro k
      rw [hasKey, hlook k]
      by_cases hk : k = "package"
      · subst hk
        simp [lookupKey_eraseKey_self, lookupKey, hasKey, hp]
      · rw [lookupKey_eraseKey_ne tw "package" k hk]
        have hbk : ("package" : String) ≠ k := fun hh => hk hh.symm
        cases hc : lookupKey tw k with
        | some v => simp [hasKey, hc]
        | none => simp [lookupKey, hbk, hasKey, hc]
    · intro k v v2 hv hv2
      rw [hlook k] at hv
      by_cases hk : k = "package"
      · subst hk
        rw [lookupKey_eraseKey_self] at hv
        simp [lookupKey] at hv
        rw [hp] at hv2
        cases hv2
        rw [← hv]
        exact wspkg_to_json_eqv twp wp hwtp2.1 hwtp2.2 hwp
      · rw [lookupKey_eraseKey_ne tw "package" k hk, hv2] at hv
        cases hv
        exact Toml.eqv_refl v (wfT_lookup tw k v hwf hv2)
  · -- package absent
    have hu2 : w.unhandled = some tw := by
      rw [hu, eraseKey_of_not_has _ "members" hmem]
    have hbase : keysNodup [("package", (none : Option Toml))] = true := by
      simp [keysNodup, hasKey, lookupKey]
    have hto : w.to_json = filterNone (updateDict
        [("package", (none : Option Toml))] tw) := by
      simp [Workspace.to_json, hpk, hu2]
    have hlook : ∀ k, lookupKey w.to_json k =
        match lookupKey tw k with
        | some v => some v
        | none => (lookupKey [("package", (none : Option Toml))] k).join :=
      fun k => by rw [hto, lookupKey_render _ _ k hbase hn]
    refine eqv_table_of_lookup _ tw ?_ ?_ ?_
    · rw [hto]
      exact keysNodup_render _ _ hbase hn
    · intro k
      rw [hasKey, hlook k]
      cases hc : lookupKey tw k with
      | some v => simp [hasKey, hc]
      | none =>
        by_cases hk : k = "package"
        · subst hk
          simp [lookupKey, hasKey, hc]
        · have hbk : ("package" : String) ≠ k := fun hh => hk hh.symm
          simp [lookupKey, hbk, hasKey, hc]
    · intro k v v2 hv hv2
      rw [hlook k, hv2] at hv
      cases hv
      exact Toml.eqv_refl v (wfT_lookup tw k v hwf hv2)

/-! ## Binary-target and entry-point inversion lemmas -/

theorem Bin.ofKwargs_ok (x : Dict) (b : Bin) (h : Bin.ofKwargs x = .ok b) :
    lookupKey x "name" = some b.name ∧ lookupKey x "path" = some b.path ∧
    ∀ kv ∈ x, kv.1 = "name" ∨ kv.1 = "path" := by
  unfold Bin.ofKwargs at h
  by_cases hall : x.all (fun kv => kv.1 = "name" || kv.1 = "path") = true
  · rw [if_pos hall] at h
    cases hn : lookupKey x "name" with
    | none => rw [hn] at h; cases hp2 : lookupKey x "path" <;> rw [hp2] at h <;> cases h
    | some n =>
      cases hp2 : lookupKey x "path" with
      | none => rw [hn, hp2] at h; cases h
      | some p =>
        rw [hn, hp2] at h
        injection h with h2
        subst h2
        refine ⟨rfl, rfl, ?_⟩
        intro kv hkv
        have := List.all_eq_true.mp hall kv hkv
        simpa using this
  · rw [if_neg hall] at h
    cases h

theorem bin_to_json_eqv (x : Dict) (b : Bin) (hwf : Toml.wfT x = true)
    (h : Bin.ofKwargs x = .ok b) : Toml.eqv (.table b.to_json) (.table x) = true := by
  obtain ⟨hn, hp, hall⟩ := Bin.ofKwargs_ok x b h
  have e1 : ("path" : String) ≠ "name" := by decide
  refine eqv_table_of_lookup _ x (by simp [Bin.to_json, keysNodup, hasKey, lookupKey, e1])
    ?_ ?_
  · intro k
    by_cases hk1 : k = "name"
    · subst hk1
      simp [Bin.to_json, hasKey, lookupKey, hn]
    · by_cases hk2 : k = "path"
      · subst hk2
        simp [Bin.to_json, hasKey, lookupKey, hp, e1]
      · have hb1 : ("name" : String) ≠ k := fun hh => hk1 hh.symm
        have hb2 : ("path" : String) ≠ k := fun hh => hk2 hh.symm
        have hxk : lookupKey x k = none := by
          cases hc : lookupKey x k with
          | none => rfl
          | some v =>
            have hck : hasKey x k = true := by simp [hasKey, hc]
            rw [hasKey_iff_mem_keys] at hck
            obtain ⟨kv, hkv, hfst⟩ := List.mem_map.mp hck
            rcases hall kv hkv with h1 | h1 <;> rw [h1] at hfst
            · exact absurd hfst hb1
            · exact absurd hfst hb2
        simp [Bin.to_json, hasKey, lookupKey, hb1, hb2, hxk]
  · intro k v w hv hw
    by_cases hk1 : k = "name"
    · subst hk1
      simp [Bin.to_json, lookupKey] at hv
      rw [hn] at hw
      cases hw
      rw [← hv]
      exact Toml.eqv_refl _ (wfT_lookup x "name" _ hwf hn)
    · by_cases hk2 : k = "path"
      · subst hk2
        simp [Bin.to_json, lookupKey, e1] at hv
        rw [hp] at hw
        cases hw
        rw [← hv]
        exact Toml.eqv_refl _ (wfT_lookup x "path" _ hwf hp)
      · have hb1 : ("name" : String) ≠ k := fun hh => hk1 hh.symm
        have hb2 : ("path" : String) ≠ k := fun hh => hk2 hh.symm
        simp [Bin.to_json, lookupKey, hb1, hb2] at hv

theorem parseBins_length (xs : List Toml) (bs : List Bin) (h : parseBins xs = .ok bs) :
    bs.length = xs.length := by
  induction xs generalizing bs with
  | nil =>
    simp only [parseBins, Except.ok.injEq] at h
    subst h
    rfl
  | cons x rest ih =>
    cases x with
    | table t =>
      cases hb : Bin.ofKwargs t with
      | error e => simp [parseBins, hb] at h
      | ok b =>
        cases hr : parseBins rest with
        | error e => simp [parseBins, hb, hr] at h
        | ok bs2 =>
          simp only [parseBins, hb, hr, Except.ok.injEq] at h
          subst h
          simp [ih bs2 hr]
    | str s => simp [parseBins] at h
    | int n => simp [parseBins] at h
    | bool bb => simp [parseBins] at h
    | arr ys => simp [parseBins] at h

theorem parseBins_eqv (xs : List Toml) (bs : List Bin) (hwf : Toml.wfL xs = true)
    (hok : parseBins xs = .ok bs) :
    Toml.eqvL (bs.map (fun b => Toml.table b.to_json)) xs = true := by
  induction xs generalizing bs with
  | nil =>
    simp only [parseBins, Except.ok.injEq] at hok
    subst hok
    simp [Toml.eqvL]
  | cons x rest ih =>
    cases x with
    | table t =>
      cases hb : Bin.ofKwargs t with
      | error e => simp [parseBins, hb] at hok
      | ok b =>
        cases hr : parseBins rest with
        | error e => simp [parseBins, hb, hr] at hok
        | ok bs2 =>
          simp only [parseBins, hb, hr, Except.ok.injEq] at hok
          subst hok
          have hw2 : Toml.wf (.table t) = true ∧ Toml.wfL rest = true := by
            simpa [Toml.wfL] using hwf
          have hwt : Toml.wfT t = true := by
            have := hw2.1
            simp [Toml.wf] at this
            exact this.2
          rw [List.map_cons, Toml.eqvL]
          simp [bin_to_json_eqv t b hwt hb, ih bs2 hw2.2 hr]
    | str s => simp [parseBins] at hok
    | int n => simp [parseBins] at hok
    | bool bb => simp [parseBins] at hok
    | arr ys => simp [parseBins] at hok

theorem packageArg_ok (data : Dict) (r : Option Package) (h : packageArg data = .ok r) :
    (∃ pv tp p, lookupKey data "package" = some pv ∧ dictOf pv = .ok tp ∧
       Package.from_json tp = .ok p ∧ r = some p) ∨
    (lookupKey data "package" = none ∧ r = none) := by
  unfold packageArg at h
  cases hp : lookupKey data "package" with
  | none =>
    rw [hp] at h
    injection h with h2
    exact Or.inr ⟨rfl, h2.symm⟩
  | some pv =>
    rw [hp] at h
    cases hd : dictOf pv with
    | error e => simp [hd] at h
    | ok tp =>
      cases hfp : Package.from_json tp with
      | error e => simp [hd, hfp] at h
      | ok p =>
        simp only [hd, hfp, Except.ok.injEq] at h
        exact Or.inl ⟨pv, tp, p, rfl, hd, hfp, h.symm⟩

theorem workspaceArg_ok (data : Dict) (r : Option Workspace) (h : workspaceArg data = .ok r) :
    (∃ pv tw w, lookupKey data "workspace" = some pv ∧ dictOf pv = .ok tw ∧
       Workspace.from_json tw = .ok w ∧ r = some w) ∨
    (lookupKey data "workspace" = none ∧ r = none) := by
  unfold workspaceArg at h
  cases hp : lookupKey data "workspace" with
  | none =>
    rw [hp] at h
    injection h with h2
    exact Or.inr ⟨rfl, h2.symm⟩
  | some pv =>
    rw [hp] at h
    cases hd : dictOf pv with
    | error e => simp [hd] at h
    | ok tw =>
      cases hfw : Workspace.from_json tw with
      | error e => simp [hd, hfw] at h
      | ok w =>
        simp only [hd, hfw, Except.ok.injEq] at h
        exact Or.inl ⟨pv, tw, w, rfl, hd, hfw, h.symm⟩

theorem dependenciesArg_ok (data : Dict) (r : Option Dependencies)
    (h : dependenciesArg data = .ok r) :
    (∃ pv td, lookupKey data "dependencies" = some pv ∧ dictOf pv = .ok td ∧
       r = some ⟨td⟩) ∨
    (lookupKey data "dependencies" = none ∧ r = none) := by
  unfold dependenciesArg at h
  cases hp : lookupKey data "dependencies" with
  | none =>
    rw [hp] at h
    injection h with h2
    exact Or.inr ⟨rfl, h2.symm⟩
  | some pv =>
    rw [hp] at h
    cases hd : dictOf pv with
    | error e => simp [hd] at h
    | ok td =>
      simp only [hd, Except.ok.injEq] at h
      exact Or.inl ⟨pv, td, rfl, hd, h.symm⟩

theorem binArg_ok (data : Dict) (r : List Bin) (h : binArg data = .ok r) :
    (∃ xs, lookupKey data "bin" = some (.arr xs) ∧ parseBins xs = .ok r) ∨
    (∃ s, lookupKey data "bin" = some (.str s) ∧ s.isEmpty = true ∧ r = []) ∨
    (∃ kvs, lookupKey data "bin" = some (.table kvs) ∧ kvs.isEmpty = true ∧ r = []) ∨
    (lookupKey data "bin" = none ∧ r = []) := by
  unfold binArg at h
  cases hp : lookupKey data "bin" with
  | none =>
    rw [hp] at h
    injection h with h2
    exact Or.inr (Or.inr (Or.inr ⟨rfl, h2.symm⟩))
  | some v =>
    rw [hp] at h
    cases v with
    | arr xs => exact Or.inl ⟨xs, rfl, h⟩
    | str s =>
      have h2 : (if s.isEmpty then (Except.ok [] : Except ManifestError (List Bin))
          else .error .typeError) = .ok r := h
      by_cases hs : s.isEmpty = true
      · rw [if_pos hs] at h2
        injection h2 with h3
        exact Or.inr (Or.inl ⟨s, rfl, hs, h3.symm⟩)
      · rw [if_neg hs] at h2
        cases h2
    | int n => cases h
    | bool b => cases h
    | table t =>
      have h2 : (if t.isEmpty then (Except.ok [] : Except ManifestError (List Bin))
          else .error .typeError) = .ok r := h
      by_cases ht : t.isEmpty = true
      · rw [if_pos ht] at h2
        injection h2 with h3
        exact Or.inr (Or.inr (Or.inl ⟨t, rfl, ht, h3.symm⟩))
      · rw [if_neg ht] at h2
        cases h2

theorem CargoManifest.of_ok (path : String) (data : Dict) (m : CargoManifest)
    (h : CargoManifest.of path data = .ok m) :
    m._path = path ∧ m._data = data ∧
    packageArg data = .ok m.package ∧ workspaceArg data = .ok m.workspace ∧
    dependenciesArg data = .ok m.dependencies ∧ binArg data = .ok m.bin := by
  unfold CargoManifest.of at h
  cases hp : packageArg data with
  | error e => rw [hp] at h; cases h
  | ok package =>
    rw [hp] at h
    cases hw : workspaceArg data with
    | error e => rw [hw] at h; cases h
    | ok workspace =>
      rw [hw] at h
      cases hd : dependenciesArg data with
      | error e => rw [hd] at h; cases h
      | ok dependencies =>
        rw [hd] at h
        cases hb : binArg data with
        | error e => rw [hb] at h; cases h
        | ok bin =>
          rw [hb] at h
          injection h with h2
          subst h2
          exact ⟨rfl, rfl, rfl, rfl, rfl, rfl⟩

/-! ## The round-trip invariant -/

/-- The serializer's intermediate dict agrees with the source tree `T`:
distinct keys, the same key set, and equivalent values at every key. -/
def RoundtripInv (T d : Dict) : Prop :=
  keysNodup d = true ∧ (∀ k, hasKey d k = hasKey T k) ∧
  (∀ k v w, lookupKey d k = some v → lookupKey T k = some w → Toml.eqv v w = true)

theorem roundtripInv_refl (T : Dict) (hn : keysNodup T = true)
    (hw : Toml.wfT T = true) : RoundtripInv T T :=
  ⟨hn, fun _ => rfl, fun k v w hv hw2 => by
    rw [hv] at hw2
    cases hw2
    exact Toml.eqv_refl v (wfT_lookup T k v hw hv)⟩

theorem roundtripInv_setKey (T d : Dict) (k0 : String) (v0 w0 : Toml)
    (hT : lookupKey T k0 = some w0) (hv : Toml.eqv v0 w0 = true)
    (h : RoundtripInv T d) : RoundtripInv T (setKey d k0 v0) := by
  obtain ⟨h1, h2, h3⟩ := h
  refine ⟨keysNodup_setKey d k0 v0 h1, ?_, ?_⟩
  · intro k
    by_cases hk : k = k0
    · subst hk
      rw [hasKey_setKey_self]
      simp [hasKey, hT]
    · rw [hasKey_setKey_ne d k0 v0 k hk]
      exact h2 k
  · intro k v w hkv hkw
    by_cases hk : k = k0
    · subst hk
      rw [lookupKey_setKey_self] at hkv
      injection hkv with h4
      subst h4
      rw [hT] at hkw
      injection hkw with h5
      subst h5
      exact hv
    · rw [lookupKey_setKey_ne d k0 v0 k hk] at hkv
      exact h3 k v w hkv hkw

theorem eqv_of_roundtripInv (T d : Dict) (h : RoundtripInv T d) :
    Toml.eqv (.table d) (.table T) = true := by
  obtain ⟨h1, h2, h3⟩ := h
  exact eqv_table_of_lookup d T h1 h2 h3

/-- The `bin` update step of the serializer, as a function. -/
def binStepFn (bins : List Bin) (d : Dict) : Dict :=
  if bins.isEmpty then eraseKey d "bin"
  else setKey d "bin" (.arr (bins.map (fun b => Toml.table b.to_json)))

/-- The `package` overwrite step of the serializer, as a function. -/
def pkgStepFn (po : Option Package) (d : Dict) : Dict :=
  match po with
  | some p => setKey d "package" (.table p.to_json)
  | none => d

/-- The `workspace` overwrite step of the serializer, as a function. -/
def wsStepFn (wo : Option Workspace) (d : Dict) : Dict :=
  match wo with
  | some w => setKey d "workspace" (.table w.to_json)
  | none => d

/-- The `dependencies` overwrite step of the serializer, as a function. -/
def depsStepFn (dpo : Option Dependencies) (d : Dict) : Dict :=
  match dpo with
  | some dp => setKey d "dependencies" (.table dp.to_json)
  | none => d

/-- The serializer is the composition of its four section updates. -/
theorem CargoManifest.to_json_eq (m : CargoManifest) :
    m.to_json =
      depsStepFn m.dependencies
        (wsStepFn m.workspace (pkgStepFn m.package (binStepFn m.bin m._data))) := by
  unfold CargoManifest.to_json binStepFn pkgStepFn wsStepFn depsStepFn
  rfl

theorem bin_step_inv (T : Dict) (bins : List Bin)
    (hn : keysNodup T = true) (hwT : Toml.wfT T = true)
    (hb : binArg T = .ok bins)
    (hbin : ∀ v, lookupKey T "bin" = some v → ∃ xs, v = Toml.arr xs ∧ xs ≠ []) :
    RoundtripInv T (binStepFn bins T) := by
  have h0 := roundtripInv_refl T hn hwT
  rcases binArg_ok T bins hb with ⟨xs, hlook, hparse⟩ | ⟨s, hlook, _, _⟩ |
    ⟨kvs, hlook, _, _⟩ | ⟨hlook, hnil⟩
  · have hxs : xs ≠ [] := by
      obtain ⟨xs2, he, hne⟩ := hbin _ hlook
      injection he with he2
      rw [he2]
      exact hne
    have hlen : bins.length = xs.length := parseBins_length xs bins hparse
    have hbne : bins.isEmpty = false := by
      cases hbs : bins with
      | nil =>
        subst hbs
        simp at hlen
        exact absurd hlen.symm (by simpa using hxs)
      | cons b bs2 => simp
    unfold binStepFn
    rw [if_neg (by simp [hbne])]
    refine roundtripInv_setKey T T "bin" _ (.arr xs) hlook ?_ h0
    rw [Toml.eqv]
    have hwarr : Toml.wf (.arr xs) = true := wfT_lookup T "bin" _ hwT hlook
    exact parseBins_eqv xs bins (by simpa [Toml.wf] using hwarr) hparse
  · obtain ⟨xs2, he, _⟩ := hbin _ hlook
    cases he
  · obtain ⟨xs2, he, _⟩ := hbin _ hlook
    cases he
  · subst hnil
    have hstep : binStepFn [] T = eraseKey T "bin" := rfl
    rw [hstep, eraseKey_of_not_has T "bin" (by simp [hasKey, hlook])]
    exact h0

theorem pkg_step_inv (T : Dict) (po : Option Package) (d : Dict)
    (hwT : Toml.wfT T = true) (hp : packageArg T = .ok po)
    (hpkt : ∀ v, lookupKey T "package" = some v → ∃ tp, v = Toml.table tp)
    (h : RoundtripInv T d) : RoundtripInv T (pkgStepFn po d) := by
  rcases packageArg_ok T po hp with ⟨pv, tp, p, hlook, hdo, hfp, hr⟩ | ⟨hlook, hr⟩
  · subst hr
    obtain ⟨tp0, hpv⟩ := hpkt pv hlook
    subst hpv
    simp only [dictOf, Except.ok.injEq] at hdo
    rw [hdo] at hlook
    have hwtp : Toml.wf (.table tp) = true := wfT_lookup T "package" _ hwT hlook
    have hsp : keysNodup tp = true ∧ Toml.wfT tp = true := by
      simpa [Toml.wf] using hwtp
    exact roundtripInv_setKey T d "package" _ _ hlook
      (pkg_to_json_eqv tp p hsp.1 hsp.2 hfp) h
  · subst hr
    exact h

theorem ws_step_inv (T : Dict) (wo : Option Workspace) (d : Dict)
    (hwT : Toml.wfT T = true) (hw : workspaceArg T = .ok wo)
    (hwst : ∀ v, lookupKey T "workspace" = some v → ∃ tw, v = Toml.table tw)
    (hwspk : ∀ tw pv, lookupKey T "workspace" = some (Toml.table tw) →
      lookupKey tw "package" = some pv → ∃ tp, pv = Toml.table tp)
    (hmem : ∀ tw, lookupKey T "workspace" = some (.table tw) →
      hasKey tw "members" = false)
    (h : RoundtripInv T d) : RoundtripInv T (wsStepFn wo d) := by
  rcases workspaceArg_ok T wo hw with ⟨pv, tw, w, hlook, hdo, hfw, hr⟩ | ⟨hlook, hr⟩
  · subst hr
    obtain ⟨tw0, hpv⟩ := hwst pv hlook
    subst hpv
    simp only [dictOf, Except.ok.injEq] at hdo
    rw [hdo] at hlook
    have hwtw : Toml.wf (.table tw) = true := wfT_lookup T "workspace" _ hwT hlook
    have hsw : keysNodup tw = true ∧ Toml.wfT tw = true := by
      simpa [Toml.wf] using hwtw
    exact roundtripInv_setKey T d "workspace" _ _ hlook
      (ws_to_json_eqv tw w hsw.1 hsw.2
        (fun pv2 hp2 => hwspk tw pv2 hlook hp2) (hmem tw hlook) hfw) h
  · subst hr
    exact h

theorem deps_step_inv (T : Dict) (dpo : Option Dependencies) (d : Dict)
    (hwT : Toml.wfT T = true) (hd : dependenciesArg T = .ok dpo)
    (hdpt : ∀ v, lookupKey T "dependencies" = some v → ∃ td, v = Toml.table td)
    (h : RoundtripInv T d) : RoundtripInv T (depsStepFn dpo d) := by
  rcases dependenciesArg_ok T dpo hd with ⟨pv, td, hlook, hdo, hr⟩ | ⟨hlook, hr⟩
  · subst hr
    obtain ⟨td0, hpv⟩ := hdpt pv hlook
    subst hpv
    simp only [dictOf, Except.ok.injEq] at hdo
    rw [hdo] at hlook
    refine roundtripInv_setKey T d "dependencies" _ _ hlook ?_ h
    exact Toml.eqv_refl _ (wfT_lookup T "dependencies" _ hwT hlook)
  · subst hr
    exact h

/-! ## The claims -/

/-- A tree whose `bin` key is the empty array: accepted by the parser, but
the serializer drops the key. -/
def claim1T1 : Dict := [("bin", Toml.arr [])]

/-- The manifest parsed from `claim1T1`. -/
def claim1M1 : CargoManifest := ⟨"Cargo.toml", claim1T1, none, none, none, []⟩

/-- A tree whose workspace has a `members` array: accepted by the parser,
but the serializer does not re-emit `members`. -/
def claim1T2 : Dict :=
  [("workspace", Toml.table [("members", Toml.arr [Toml.str "crates/a"])])]

/-- The manifest parsed from `claim1T2`. -/
def claim1M2 : CargoManifest :=
  ⟨"Cargo.toml", claim1T2, none,
    some ⟨none, some (Toml.arr [Toml.str "crates/a"]), some []⟩, none, []⟩

/-- A tree whose `package` value is a list of key/value pairs: `dict()`
coerces it to a mapping, so the parser accepts it, but the serializer
re-emits the section as a table. -/
def claim1T3 : Dict :=
  [("package", Toml.arr [Toml.arr [Toml.str "name", Toml.str "x"]])]

/-- The manifest parsed from `claim1T3`. -/
def claim1M3 : CargoManifest :=
  ⟨"Cargo.toml", claim1T3, some ⟨Toml.str "x", none, none, some []⟩, none, none, []⟩

/-- A tree whose `bin` value is the empty string: iterating it yields no
entries, so the parser accepts an empty bin list and the serializer drops
the key. -/
def claim1T4 : Dict := [("bin", Toml.str "")]

/-- The manifest parsed from `claim1T4`. -/
def claim1M4 : CargoManifest := ⟨"Cargo.toml", claim1T4, none, none, none, []⟩

/-- A tree whose `dependencies` value is the empty string: `dict("")` is the
empty mapping, but the serializer re-emits the section as a table. -/
def claim1T5 : Dict := [("dependencies", Toml.str "")]

/-- The manifest parsed from `claim1T5`. -/
def claim1M5 : CargoManifest :=
  ⟨"Cargo.toml", claim1T5, none, none, some ⟨[]⟩, []⟩

/-- A tree whose `workspace` value is the empty string: `dict("")` is the
empty mapping, but the serializer re-emits the section as a table. -/
def claim1T6 : Dict := [("workspace", Toml.str "")]

/-- The manifest parsed from `claim1T6`. -/
def claim1M6 : CargoManifest :=
  ⟨"Cargo.toml", claim1T6, none, some ⟨none, none, some []⟩, none, []⟩

/-- A tree whose `workspace.package` value is a list of key/value pairs:
the nested `dict()` clone coerces it, but the serializer re-emits it as a
table. -/
def claim1T7 : Dict :=
  [("workspace", Toml.table
    [("package", Toml.arr [Toml.arr [Toml.str "version", Toml.str "1"]])])]

/-- The manifest parsed from `claim1T7`. -/
def claim1M7 : CargoManifest :=
  ⟨"Cargo.toml", claim1T7, none,
    some ⟨some ⟨Toml.str "1", some []⟩, none, some []⟩, none, []⟩

/-- C1 counterexample: the round-trip claim fails as stated.  Concrete trees
accepted by `CargoManifest.of` that do not round-trip: a tree with
`bin = []` (the serializer removes the key); a tree whose workspace has
`members` (never re-emitted); a `package` section given as a list of pairs
(`dict()` coerces it, the serializer emits a table); `bin` given as the
empty string (iterates to no entries, key dropped); `dependencies` and
`workspace` given as the empty string (`dict("")` is empty, re-emitted as a
table); and a `workspace.package` given as a list of pairs. -/
theorem claim1_roundtrip_counterexample :
    (CargoManifest.of "Cargo.toml" claim1T1 = .ok claim1M1 ∧
      dictEqv claim1M1.to_json claim1T1 = false) ∧
    (CargoManifest.of "Cargo.toml" claim1T2 = .ok claim1M2 ∧
      dictEqv claim1M2.to_json claim1T2 = false) ∧
    (CargoManifest.of "Cargo.toml" claim1T3 = .ok claim1M3 ∧
      dictEqv claim1M3.to_json claim1T3 = false) ∧
    (CargoManifest.of "Cargo.toml" claim1T4 = .ok claim1M4 ∧
      dictEqv claim1M4.to_json claim1T4 = false) ∧
    (CargoManifest.of "Cargo.toml" claim1T5 = .ok claim1M5 ∧
      dictEqv claim1M5.to_json claim1T5 = false) ∧
    (CargoManifest.of "Cargo.toml" claim1T6 = .ok claim1M6 ∧
      dictEqv claim1M6.to_json claim1T6 = false) ∧
    (CargoManifest.of "Cargo.toml" claim1T7 = .ok claim1M7 ∧
      dictEqv claim1M7.to_json claim1T7 = false) := by
  exact ⟨⟨rfl, by decide⟩, ⟨rfl, by decide⟩, ⟨rfl, by decide⟩, ⟨rfl, by decide⟩,
    ⟨rfl, by decide⟩, ⟨rfl, by decide⟩, rfl, by decide⟩

/-- C1 (amended): for every well-formed input tree T (pairwise-distinct keys
in every table, as every decoded Python dict has) that the parser accepts,
whose `package`, `workspace`, `dependencies` and nested `workspace.package`
values, when present, are tables, whose `bin` value, when present, is a
non-empty array, and whose `workspace` table has no `members` key,
serializing the parsed document yields a tree equal to T by key/value
equality. -/
theorem claim1_roundtrip (T : Dict) (path : String) (m : CargoManifest)
    (hwf : dictWf T = true)
    (hof : CargoManifest.of path T = .ok m)
    (hpk : ∀ v, lookupKey T "package" = some v → ∃ tp, v = Toml.table tp)
    (hws : ∀ v, lookupKey T "workspace" = some v → ∃ tw, v = Toml.table tw)
    (hdp : ∀ v, lookupKey T "dependencies" = some v → ∃ td, v = Toml.table td)
    (hwspk : ∀ tw pv, lookupKey T "workspace" = some (Toml.table tw) →
      lookupKey tw "package" = some pv → ∃ tp, pv = Toml.table tp)
    (hbin : ∀ v, lookupKey T "bin" = some v → ∃ xs, v = Toml.arr xs ∧ xs ≠ [])
    (hmem : ∀ tw, lookupKey T "workspace" = some (.table tw) →
      hasKey tw "members" = false) :
    dictEqv m.to_json T = true := by
  obtain ⟨hpath, hdata, hp, hw, hd, hb⟩ := CargoManifest.of_ok path T m hof
  have hs : keysNodup T = true ∧ Toml.wfT T = true := by
    simpa [dictWf, Toml.wf] using hwf
  have i1 := bin_step_inv T m.bin hs.1 hs.2 hb hbin
  have i2 := pkg_step_inv T m.package _ hs.2 hp hpk i1
  have i3 := ws_step_inv T m.workspace _ hs.2 hw hws hwspk hmem i2
  have i4 := deps_step_inv T m.dependencies _ hs.2 hd hdp i3
  rw [dictEqv, CargoManifest.to_json_eq, hdata]
  exact eqv_of_roundtripInv T _ i4

/-- A full-featured tree for the C1 witness: package with an unhandled key,
non-empty bin, workspace with a package, dependencies, and an untouched
extra key. -/
def claim1T : Dict :=
  [("package", Toml.table [("name", Toml.str "test"), ("version", Toml.str "0.1.2"),
      ("edition", Toml.str "2021"), ("include", Toml.arr [Toml.str "a", Toml.str "b"])]),
   ("bin", Toml.arr [Toml.table [("name", Toml.str "bin1"), ("path", Toml.str "src/main.rs")]]),
   ("workspace", Toml.table [("package", Toml.table [("version", Toml.str "0.1.2")])]),
   ("dependencies", Toml.table [("foo", Toml.table [("path", Toml.str "../foo")]),
      ("bar", Toml.str "2.0")]),
   ("badges", Toml.table [])]

/-- The manifest parsed from `claim1T`. -/
def claim1M : CargoManifest :=
  ⟨"Cargo.toml", claim1T,
   some ⟨Toml.str "test", some (Toml.str "0.1.2"), some (Toml.str "2021"),
     some [("include", Toml.arr [Toml.str "a", Toml.str "b"])]⟩,
   some ⟨some ⟨Toml.str "0.1.2", some []⟩, none, some []⟩,
   some ⟨[("foo", Toml.table [("path", Toml.str "../foo")]), ("bar", Toml.str "2.0")]⟩,
   [⟨Toml.str "bin1", Toml.str "src/main.rs"⟩]⟩

/-- C1 witness: the amended round-trip theorem applied to a concrete tree
exercising every section. -/
theorem claim1_roundtrip_witness :
    dictWf claim1T = true ∧ CargoManifest.of "Cargo.toml" claim1T = .ok claim1M ∧
    dictEqv claim1M.to_json claim1T = true :=
  ⟨by decide, rfl,
    claim1_roundtrip claim1T "Cargo.toml" claim1M (by decide) rfl
      (by
        intro v h
        rw [show lookupKey claim1T "package"
            = some (Toml.table [("name", Toml.str "test"),
                ("version", Toml.str "0.1.2"), ("edition", Toml.str "2021"),
                ("include", Toml.arr [Toml.str "a", Toml.str "b"])])
            from rfl] at h
        injection h with h2
        exact ⟨_, h2.symm⟩)
      (by
        intro v h
        rw [show lookupKey claim1T "workspace"
            = some (Toml.table [("package", Toml.table [("version", Toml.str "0.1.2")])])
            from rfl] at h
        injection h with h2
        exact ⟨_, h2.symm⟩)
      (by
        intro v h
        rw [show lookupKey claim1T "dependencies"
            = some (Toml.table [("foo", Toml.table [("path", Toml.str "../foo")]),
                ("bar", Toml.str "2.0")])
            from rfl] at h
        injection h with h2
        exact ⟨_, h2.symm⟩)
      (by
        intro tw pv h hp2
        rw [show lookupKey claim1T "workspace"
            = some (Toml.table [("package", Toml.table [("version", Toml.str "0.1.2")])])
            from rfl] at h
        injection h with h2
        injection h2 with h3
        rw [← h3] at hp2
        rw [show lookupKey [("package", Toml.table [("version", Toml.str "0.1.2")])]
            "package" = some (Toml.table [("version", Toml.str "0.1.2")])
            from rfl] at hp2
        injection hp2 with h4
        exact ⟨_, h4.symm⟩)
      (by
        intro v h
        rw [show lookupKey claim1T "bin"
            = some (Toml.arr [Toml.table
                [("name", Toml.str "bin1"), ("path", Toml.str "src/main.rs")]])
            from rfl] at h
        injection h with h2
        refine ⟨_, h2.symm, ?_⟩
        intro hc
        cases hc)
      (by
        intro tw h
        rw [show lookupKey claim1T "workspace"
            = some (Toml.table [("package", Toml.table [("version", Toml.str "0.1.2")])])
            from rfl] at h
        injection h with h2
        injection h2 with h3
        subst h3
        decide)⟩

theorem lookupKey_pkgStepFn_ne (po : Option Package) (d : Dict) (k : String)
    (h : k ≠ "package") : lookupKey (pkgStepFn po d) k = lookupKey d k := by
  cases po with
  | some p => exact lookupKey_setKey_ne d "package" _ k h
  | none => rfl

theorem lookupKey_wsStepFn_ne (wo : Option Workspace) (d : Dict) (k : String)
    (h : k ≠ "workspace") : lookupKey (wsStepFn wo d) k = lookupKey d k := by
  cases wo with
  | some w => exact lookupKey_setKey_ne d "workspace" _ k h
  | none => rfl

theorem lookupKey_depsStepFn_ne (dpo : Option Dependencies) (d : Dict) (k : String)
    (h : k ≠ "dependencies") : lookupKey (depsStepFn dpo d) k = lookupKey d k := by
  cases dpo with
  | some dp => exact lookupKey_setKey_ne d "dependencies" _ k h
  | none => rfl

/-- C8: serialization emits no `bin` key at all when the manifest's bin list
is empty, even when the raw tree contained one; when the list is non-empty,
`bin` is the array of the rendered `{name, path}` targets. -/
theorem claim8_bin_emission (m : CargoManifest) :
    (m.bin = [] → lookupKey m.to_json "bin" = none) ∧
    (m.bin ≠ [] → lookupKey m.to_json "bin"
      = some (.arr (m.bin.map (fun b => Toml.table b.to_json)))) := by
  rw [CargoManifest.to_json_eq]
  rw [lookupKey_depsStepFn_ne _ _ _ (by decide), lookupKey_wsStepFn_ne _ _ _ (by decide),
      lookupKey_pkgStepFn_ne _ _ _ (by decide)]
  constructor
  · intro h
    rw [h]
    exact lookupKey_eraseKey_self m._data "bin"
  · intro h
    have he : m.bin.isEmpty = false := by
      cases hb : m.bin with
      | nil => exact absurd hb h
      | cons x xs => simp
    unfold binStepFn
    rw [if_neg (by simp [he]), lookupKey_setKey_self]

/-- A manifest whose typed bin list is empty while the raw tree still holds
a `bin` key. -/
def claim8M1 : CargoManifest :=
  ⟨"Cargo.toml",
   [("bin", Toml.arr [Toml.table [("name", Toml.str "x"), ("path", Toml.str "y")]]),
    ("other", Toml.int 1)],
   none, none, none, []⟩

/-- A manifest with one binary target. -/
def claim8M2 : CargoManifest :=
  ⟨"Cargo.toml", [], none, none, none, [⟨Toml.str "n", Toml.str "p"⟩]⟩

/-- C8 witness: the bin-emission theorem at two concrete manifests; the first
has a raw `bin` key that disappears, the second emits the rendered array. -/
theorem claim8_bin_emission_witness :
    lookupKey claim8M1.to_json "bin" = none ∧
    lookupKey claim8M2.to_json "bin"
      = some (Toml.arr [Toml.table [("name", Toml.str "n"), ("path", Toml.str "p")]]) :=
  ⟨(claim8_bin_emission claim8M1).1 rfl, (claim8_bin_emission claim8M2).2 (by decide)⟩

theorem hasKey_cons_of_tail {α : Type} (k2 : String) (v : α) (rest : List (String × α))
    (k : String) (h : hasKey rest k = true) : hasKey ((k2, v) :: rest) k = true := by
  by_cases h2 : k2 = k <;> simp [hasKey, lookupKey, h2] <;> simpa [hasKey] using h

theorem hasKey_updateDict_false (u : Dict) (acc : List (String × Option Toml)) (k : String)
    (ha : hasKey acc k = false) (hu : hasKey u k = false) :
    hasKey (updateDict acc u) k = false := by
  induction u generalizing acc with
  | nil => simpa [updateDict]
  | cons kv rest ih =>
    obtain ⟨k2, v⟩ := kv
    have h2 : k2 ≠ k := by
      intro he
      subst he
      simp [hasKey, lookupKey] at hu
    have hrest : hasKey rest k = false := by
      simpa [hasKey, lookupKey, h2] using hu
    have hstep : updateDict acc ((k2, v) :: rest) = updateDict (setKey acc k2 (some v)) rest := by
      simp [updateDict, List.foldl_cons]
    rw [hstep]
    have h3 : k ≠ k2 := fun hh => h2 hh.symm
    have ha2 : hasKey (setKey acc k2 (some v)) k = false := by
      rw [hasKey_setKey_ne acc k2 (some v) k h3]
      exact ha
    exact ih (setKey acc k2 (some v)) ha2 hrest

theorem hasKey_updateDict_le (u : Dict) (acc : List (String × Option Toml)) (k : String)
    (h : hasKey (updateDict acc u) k = true) :
    hasKey acc k = true ∨ hasKey u k = true := by
  induction u generalizing acc with
  | nil => simpa [updateDict] using Or.inl h
  | cons kv rest ih =>
    obtain ⟨k2, v⟩ := kv
    have hstep : updateDict acc ((k2, v) :: rest) = updateDict (setKey acc k2 (some v)) rest := by
      simp [updateDict, List.foldl_cons]
    rw [hstep] at h
    rcases ih (setKey acc k2 (some v)) h with h2 | h2
    · by_cases hk : k = k2
      · subst hk
        exact Or.inr (by simp [hasKey, lookupKey])
      · rw [hasKey_setKey_ne acc k2 (some v) k hk] at h2
        exact Or.inl h2
    · exact Or.inr (hasKey_cons_of_tail k2 v rest k h2)

/-- A workspace whose typed `members` field is populated while its unhandled
mapping also happens to contain a `members` entry set programmatically. -/
def claim3W : Workspace :=
  ⟨none, some (Toml.arr [Toml.str "a"]), some [("members", Toml.str "x")]⟩

/-- C3 counterexample: the serializer never re-emits the typed `members`
field, but it does emit the `unhandled` mapping verbatim, so a Workspace
value whose unhandled mapping contains a `members` entry produces an output
containing the `members` key, refuting the claim over all Workspace values. -/
theorem claim3_members_counterexample :
    claim3W.members = some (Toml.arr [Toml.str "a"]) ∧
    hasKey claim3W.to_json "members" = true := by
  exact ⟨rfl, by decide⟩

/-- C3 (amended): for every Workspace value whose typed `members` field is
populated and whose unhandled mapping (when present) has no `members` entry
— which holds for every parsed workspace, since parsing pops `members`
before collecting `unhandled` — the serialized output contains no `members`
key, and every emitted key is either `package` or a key of the unhandled
mapping. -/
theorem claim3_members_not_emitted (w : Workspace) (hm : w.members.isSome = true)
    (hu : ∀ u, w.unhandled = some u → hasKey u "members" = false) :
    lookupKey w.to_json "members" = none ∧
    (∀ k, hasKey w.to_json k = true →
      k = "package" ∨ ∃ u, w.unhandled = some u ∧ hasKey u k = true) := by
  have hbase : ∀ k, hasKey
      [("package", (w.package.map (fun p => Toml.table p.to_json) : Option Toml))] k = true →
      k = "package" := by
    intro k hk
    by_cases h2 : k = "package"
    · exact h2
    · simp [hasKey, lookupKey] at hk
      exact absurd hk.symm h2
  cases hun : w.unhandled with
  | none =>
    have hto : w.to_json = filterNone
        [("package", (w.package.map (fun p => Toml.table p.to_json) : Option Toml))] := by
      simp [Workspace.to_json, hun]
    constructor
    · rw [hto]
      cases hc : lookupKey (filterNone
          [("package", (w.package.map (fun p => Toml.table p.to_json) : Option Toml))])
          "members" with
      | none => rfl
      | some v =>
        have hhk : hasKey (filterNone
            [("package", (w.package.map (fun p => Toml.table p.to_json) : Option Toml))])
            "members" = true := by simp [hasKey, hc]
        have := hasKey_filterNone_le _ "members" hhk
        exact absurd (hbase "members" this) (by decide)
    · intro k hk
      rw [hto] at hk
      exact Or.inl (hbase k (hasKey_filterNone_le _ k hk))
  | some u =>
    have hto : w.to_json = filterNone (updateDict
        [("package", (w.package.map (fun p => Toml.table p.to_json) : Option Toml))] u) := by
      simp [Workspace.to_json, hun]
    have epm : ("package" : String) ≠ "members" := by decide
    have hbm : hasKey
        [("package", (w.package.map (fun p => Toml.table p.to_json) : Option Toml))]
        "members" = false := by simp [hasKey, lookupKey, epm]
    constructor
    · rw [hto]
      cases hc : lookupKey (filterNone (updateDict
          [("package", (w.package.map (fun p => Toml.table p.to_json) : Option Toml))] u))
          "members" with
      | none => rfl
      | some v =>
        have hhk : hasKey (filterNone (updateDict
            [("package", (w.package.map (fun p => Toml.table p.to_json) : Option Toml))] u))
            "members" = true := by simp [hasKey, hc]
        have h1 := hasKey_filterNone_le _ "members" hhk
        have h2 := hasKey_updateDict_false u _ "members" hbm (hu u hun)
        rw [h2] at h1
        cases h1
    · intro k hk
      rw [hto] at hk
      rcases hasKey_updateDict_le u _ k (hasKey_filterNone_le _ k hk) with h2 | h2
      · exact Or.inl (hbase k h2)
      · exact Or.inr ⟨u, rfl, h2⟩

/-- A parsed-shape workspace with members populated: package present,
unhandled without a members entry. -/
def claim3W2 : Workspace :=
  ⟨some ⟨Toml.str "1.0.0", some []⟩, some (Toml.arr [Toml.str "crates/a"]),
   some [("resolver", Toml.str "2")]⟩

/-- C3 witness: the amended theorem at a concrete workspace; the output has
no `members` key even though the typed field is populated. -/
theorem claim3_members_not_emitted_witness :
    claim3W2.members.isSome = true ∧ lookupKey claim3W2.to_json "members" = none :=
  ⟨by decide,
   (claim3_members_not_emitted claim3W2 (by decide)
     (by
       intro u h
       injection h with h2
       subst h2
       decide)).1⟩

/-- A tree with neither `package` nor `workspace` but a malformed `bin`
value: the permissive entry point rejects it too. -/
def claim4T : Dict := [("bin", Toml.str "x")]

/-- C4 counterexample: the claim fails as universally stated.  A tree with
neither `package` nor `workspace` whose `bin` value is not an array is
rejected by the permissive construct-from-tree entry point with a shape
error, so construction does not succeed on every such tree. -/
theorem claim4_strict_vs_permissive_counterexample :
    lookupKey claim4T "package" = none ∧ lookupKey claim4T "workspace" = none ∧
    CargoManifest.of "Cargo.toml" claim4T = .error .typeError := by
  exact ⟨rfl, rfl, rfl⟩

/-- C4 (amended): for every tree with neither a `package` nor a `workspace`
key that the programmatic construct-from-tree entry point accepts (for
example the empty tree), the load-from-file entry point fails on the same
tree with the structural-validity error. -/
theorem claim4_strict_vs_permissive (T : Dict) (path : String) (m : CargoManifest)
    (hp : lookupKey T "package" = none) (hw : lookupKey T "workspace" = none)
    (hof : CargoManifest.of path T = .ok m) :
    CargoManifest.read path T = .error .classError := by
  obtain ⟨_, _, hpk, hwk, _, _⟩ := CargoManifest.of_ok path T m hof
  have hpn : m.package = none := by
    rcases packageArg_ok T m.package hpk with ⟨pv, tp, p, hlook, _, _, _⟩ | ⟨_, hr⟩
    · rw [hp] at hlook
      cases hlook
    · exact hr
  have hwn : m.workspace = none := by
    rcases workspaceArg_ok T m.workspace hwk with ⟨pv, tw, w, hlook, _, _, _⟩ | ⟨_, hr⟩
    · rw [hw] at hlook
      cases hlook
    · exact hr
  unfold CargoManifest.read
  rw [hof]
  simp [hpn, hwn]

/-- The manifest parsed from the empty tree. -/
def claim4M : CargoManifest := ⟨"Cargo.toml", [], none, none, none, []⟩

/-- C4 witness: on the empty tree the permissive entry point succeeds and
the strict one fails with the structural-validity error. -/
theorem claim4_strict_vs_permissive_witness :
    CargoManifest.of "Cargo.toml" ([] : Dict) = .ok claim4M ∧
    CargoManifest.read "Cargo.toml" ([] : Dict) = .error .classError :=
  ⟨rfl, claim4_strict_vs_permissive [] "Cargo.toml" claim4M rfl rfl rfl⟩

/-- Pushing versions into path dependencies touches only the dependency
table: every other manifest field is unchanged. -/
theorem push_deps_frame (m : CargoManifest) (v a : String) :
    (push_version_to_path_deps m v a)._path = m._path ∧
    (push_version_to_path_deps m v a)._data = m._data ∧
    (push_version_to_path_deps m v a).package = m.package ∧
    (push_version_to_path_deps m v a).workspace = m.workspace ∧
    (push_version_to_path_deps m v a).bin = m.bin := by
  unfold push_version_to_path_deps
  cases m.dependencies <;> simp

/-- C7: when the manifest has no package section, the version bump is a
no-op: the manifest is returned unchanged, and the task's update yields the
serialization of the unchanged document. -/
theorem claim7_bump_noop (m : CargoManifest) (v : String) (r : Option String)
    (h : m.package = none) :
    bump_manifest m v r = m ∧
    (∀ data, CargoManifest.read "Cargo.toml" data = .ok m →
      get_updated_cargo_toml data v r = .ok m.to_json) := by
  have hb : bump_manifest m v r = m := by
    unfold bump_manifest
    rw [h]
  refine ⟨hb, ?_⟩
  intro data hread
  unfold get_updated_cargo_toml
  rw [hread]
  simp only [hb]

/-- The decoded tree of a workspace-only manifest. -/
def claim7T : Dict :=
  [("workspace", Toml.table [("package", Toml.table [("version", Toml.str "1.0.0")])])]

/-- The manifest parsed from `claim7T`: no package section. -/
def claim7M : CargoManifest :=
  ⟨"Cargo.toml", claim7T, none,
   some ⟨some ⟨Toml.str "1.0.0", some []⟩, none, some []⟩, none, []⟩

/-- C7 witness: the no-op theorem at a concrete workspace-only manifest. -/
theorem claim7_bump_noop_witness :
    claim7M.package = none ∧
    bump_manifest claim7M "2.0.0" (some "myreg") = claim7M ∧
    get_updated_cargo_toml claim7T "2.0.0" (some "myreg") = .ok claim7M.to_json :=
  ⟨rfl, (claim7_bump_noop claim7M "2.0.0" (some "myreg") rfl).1,
   (claim7_bump_noop claim7M "2.0.0" (some "myreg") rfl).2 claim7T rfl⟩

/-- C5: for every manifest with a package section carrying a version and a
workspace package, bumping to version V sets both the package version and
the workspace package version to V, with or without a registry. -/
theorem claim5_version_sync (m : CargoManifest) (pkg : Package) (ws : Workspace)
    (wsp : WorkspacePackage) (v : String) (r : Option String)
    (hp : m.package = some pkg) (hv : pkg.version.isSome = true)
    (hw : m.workspace = some ws) (hwp : ws.package = some wsp) :
    ((bump_manifest m v r).package.map (fun p => p.version)) = some (some (.str v)) ∧
    (((bump_manifest m v r).workspace.bind (fun w => w.package)).map
      (fun wp2 => wp2.version)) = some (.str v) := by
  unfold bump_manifest
  rw [hp]
  simp only [hw, hwp]
  cases r with
  | none => simp
  | some a =>
    have hf := push_deps_frame
      { m with
        package := some { pkg with version := some (.str v) },
        workspace := some { ws with package := some { wsp with version := .str v } } } v a
    rw [hf.2.2.1, hf.2.2.2.1]
    simp

/-- A manifest with both a package version and a workspace package version. -/
def claim5M : CargoManifest :=
  ⟨"Cargo.toml",
   [("package", Toml.table [("name", Toml.str "t"), ("version", Toml.str "0.1.0")]),
    ("workspace", Toml.table [("package", Toml.table [("version", Toml.str "0.1.0")])])],
   some ⟨Toml.str "t", some (Toml.str "0.1.0"), none, some []⟩,
   some ⟨some ⟨Toml.str "0.1.0", some []⟩, none, some []⟩, none, []⟩

/-- C5 witness: the synchronization theorem at a concrete manifest bumped to
3.0.0. -/
theorem claim5_version_sync_witness :
    ((bump_manifest claim5M "3.0.0" none).package.map (fun p => p.version))
      = some (some (Toml.str "3.0.0")) ∧
    (((bump_manifest claim5M "3.0.0" none).workspace.bind (fun w => w.package)).map
      (fun wp2 => wp2.version)) = some (Toml.str "3.0.0") :=
  claim5_version_sync claim5M ⟨Toml.str "t", some (Toml.str "0.1.0"), none, some []⟩
    ⟨some ⟨Toml.str "0.1.0", some []⟩, none, some []⟩ ⟨Toml.str "0.1.0", some []⟩
    "3.0.0" none rfl (by decide) rfl rfl

/-- C2: with a supplied registry alias, the bump rewrites exactly the
dependency entries whose specification is a nested table containing a
`path` key — injecting `version` = target and `registry` = alias and
keeping every other key of the table — while plain-string entries and
tables without a `path` key are returned untouched; names, order, and every
other manifest field are preserved. -/
theorem claim2_push_path_deps (m : CargoManifest) (d : Dependencies) (v a : String)
    (h : m.dependencies = some d) :
    ∃ d2, push_version_to_path_deps m v a = { m with dependencies := some d2 } ∧
      d2.data.length = d.data.length ∧
      ∀ i, i < d.data.length →
        ∃ kname spec spec2, d.data[i]? = some (kname, spec) ∧
          d2.data[i]? = some (kname, spec2) ∧
          (∀ t, spec = .table t → hasKey t "path" = true →
            ∃ t2, spec2 = .table t2 ∧
              lookupKey t2 "version" = some (.str v) ∧
              lookupKey t2 "registry" = some (.str a) ∧
              (∀ k, k ≠ "version" → k ≠ "registry" → lookupKey t2 k = lookupKey t k)) ∧
          (∀ t, spec = .table t → hasKey t "path" = false → spec2 = spec) ∧
          ((∀ t, spec ≠ .table t) → spec2 = spec) := by
  refine ⟨⟨d.data.map (fun kv => (kv.1, bumpDep v a kv.2))⟩, ?_, by simp, ?_⟩
  · unfold push_version_to_path_deps
    rw [h]
  · intro i hi
    have hget : d.data[i]? = some (d.data[i]) := List.getElem?_eq_getElem hi
    have hmap : (d.data.map (fun kv => (kv.1, bumpDep v a kv.2)))[i]?
        = some ((d.data[i]).1, bumpDep v a (d.data[i]).2) := by
      rw [List.getElem?_map, hget]
      rfl
    refine ⟨(d.data[i]).1, (d.data[i]).2, bumpDep v a (d.data[i]).2, by rw [hget], hmap,
      ?_, ?_, ?_⟩
    · intro t ht hpath
      rw [ht]
      refine ⟨setKey (setKey t "version" (Toml.str v)) "registry" (Toml.str a), ?_, ?_, ?_, ?_⟩
      · show (if hasKey t "path" = true
            then Toml.table (setKey (setKey t "version" (Toml.str v)) "registry" (Toml.str a))
            else Toml.table t)
          = Toml.table (setKey (setKey t "version" (Toml.str v)) "registry" (Toml.str a))
        rw [if_pos hpath]
      · rw [lookupKey_setKey_ne (setKey t "version" (Toml.str v)) "registry" (Toml.str a)
            "version" (by decide), lookupKey_setKey_self]
      · rw [lookupKey_setKey_self]
      · intro k hk1 hk2
        rw [lookupKey_setKey_ne (setKey t "version" (Toml.str v)) "registry" (Toml.str a)
            k hk2, lookupKey_setKey_ne t "version" (Toml.str v) k hk1]
    · intro t ht hpath
      rw [ht]
      show (if hasKey t "path" = true
          then Toml.table (setKey (setKey t "version" (Toml.str v)) "registry" (Toml.str a))
          else Toml.table t) = Toml.table t
      rw [if_neg (by simp [hpath])]
    · intro hnt
      cases hspec : (d.data[i]).2 with
      | table t => exact absurd hspec (hnt t)
      | str s => rfl
      | int n => rfl
      | bool b => rfl
      | arr xs => rfl

/-- A manifest with a path dependency, a plain-string dependency, and a
table dependency without a path. -/
def claim2M : CargoManifest :=
  ⟨"Cargo.toml",
   [("package", Toml.table [("name", Toml.str "n"), ("version", Toml.str "0.1.0")]),
    ("dependencies", Toml.table
      [("foo", Toml.table [("path", Toml.str "../foo")]),
       ("bar", Toml.str "2.0"),
       ("baz", Toml.table [("version", Toml.str "1.0")])])],
   some ⟨Toml.str "n", some (Toml.str "0.1.0"), none, some []⟩, none,
   some ⟨[("foo", Toml.table [("path", Toml.str "../foo")]),
     ("bar", Toml.str "2.0"),
     ("baz", Toml.table [("version", Toml.str "1.0")])]⟩, []⟩

/-- C2 witness: the path-dependency theorem at a concrete three-entry
dependency table. -/
theorem claim2_push_path_deps_witness :
    ∃ d2, push_version_to_path_deps claim2M "1.2.3" "myreg"
        = { claim2M with dependencies := some d2 } ∧
      d2.data.length = 3 ∧
      ∀ i, i < 3 →
        ∃ kname spec spec2,
          [("foo", Toml.table [("path", Toml.str "../foo")]),
           ("bar", Toml.str "2.0"),
           ("baz", Toml.table [("version", Toml.str "1.0")])][i]? = some (kname, spec) ∧
          d2.data[i]? = some (kname, spec2) ∧
          (∀ t, spec = .table t → hasKey t "path" = true →
            ∃ t2, spec2 = .table t2 ∧
              lookupKey t2 "version" = some (.str "1.2.3") ∧
              lookupKey t2 "registry" = some (.str "myreg") ∧
              (∀ k, k ≠ "version" → k ≠ "registry" → lookupKey t2 k = lookupKey t k)) ∧
          (∀ t, spec = .table t → hasKey t "path" = false → spec2 = spec) ∧
          ((∀ t, spec ≠ .table t) → spec2 = spec) :=
  claim2_push_path_deps claim2M
    ⟨[("foo", Toml.table [("path", Toml.str "../foo")]),
      ("bar", Toml.str "2.0"),
      ("baz", Toml.table [("version", Toml.str "1.0")])]⟩ "1.2.3" "myreg" rfl

theorem eraseKey_eq_filter {α : Type} (d : List (String × α)) (k : String) :
    eraseKey d k = d.filter (fun kv => !(kv.1 == k)) := by
  induction d with
  | nil => rfl
  | cons kv rest ih =>
    obtain ⟨k2, v⟩ := kv
    by_cases h2 : k2 = k <;> simp [eraseKey, h2, ih, List.filter_cons]

theorem filter_filter_filter {α : Type} (l : List α) (p q r : α → Bool) :
    ((l.filter p).filter q).filter r = l.filter (fun x => p x && q x && r x) := by
  induction l with
  | nil => rfl
  | cons x xs ih =>
    cases hp : p x <;> cases hq : q x <;> cases hr : r x <;>
      simp [List.filter_cons, hp, hq, hr, ih] <;>
      (refine List.filter_congr ?_
       intro a _
       cases hpa : p a <;> cases hqa : q a <;> cases hra : r a <;> simp [hpa, hqa, hra])

/-- C6: every key of the raw `package` section other than `name`, `version`
and `edition` survives parse-then-serialize with its exact value; the
`unhandled` mapping holds exactly the extra keys (its length is the number
of keys outside the recognized set) with their values untouched. -/
theorem claim6_unknown_fields (tp : Dict) (p : Package) (hn : keysNodup tp = true)
    (hok : Package.from_json tp = .ok p) :
    (∀ k, k ≠ "name" → k ≠ "version" → k ≠ "edition" →
      lookupKey p.to_json k = lookupKey tp k) ∧
    ∃ u, p.unhandled = some u ∧
      u.length = (tp.filter (fun kv =>
        !(kv.1 == "name") && !(kv.1 == "version") && !(kv.1 == "edition"))).length ∧
      (∀ k v, k ≠ "name" → k ≠ "version" → k ≠ "edition" →
        lookupKey tp k = some v → lookupKey u k = some v) := by
  refine ⟨fun k _ _ _ => pkg_to_json_lookup tp p hn hok k, ?_⟩
  obtain ⟨nm, hname, hp⟩ := pkg_from_json_ok tp p hok
  subst hp
  refine ⟨_, rfl, ?_, ?_⟩
  · rw [eraseKey_eq_filter, eraseKey_eq_filter, eraseKey_eq_filter, filter_filter_filter]
  · intro k v hk1 hk2 hk3 hv
    rw [lookupKey_eraseKey_ne _ "edition" k hk3, lookupKey_eraseKey_ne _ "version" k hk2,
        lookupKey_eraseKey_ne _ "name" k hk1]
    exact hv

/-- The package section of the repository's own test, with two extra keys
holding two-element arrays. -/
def claim6TP : Dict :=
  [("name", Toml.str "test"), ("version", Toml.str "0.1.2"),
   ("edition", Toml.str "2021"),
   ("include", Toml.arr [Toml.str "test1", Toml.str "test2"]),
   ("authors", Toml.arr [Toml.str "author1", Toml.str "author2"])]

/-- The package parsed from `claim6TP`. -/
def claim6P : Package :=
  ⟨Toml.str "test", some (Toml.str "0.1.2"), some (Toml.str "2021"),
   some [("include", Toml.arr [Toml.str "test1", Toml.str "test2"]),
     ("authors", Toml.arr [Toml.str "author1", Toml.str "author2"])]⟩

/-- C6 witness: the unknown-field theorem at the test's package section; the
extra-key count evaluates to exactly 2 and the two-element array survives. -/
theorem claim6_unknown_fields_witness :
    (lookupKey claim6P.to_json "include" = lookupKey claim6TP "include") ∧
    (∃ u, claim6P.unhandled = some u ∧
      u.length = (claim6TP.filter (fun kv =>
        !(kv.1 == "name") && !(kv.1 == "version") && !(kv.1 == "edition"))).length ∧
      (∀ k v, k ≠ "name" → k ≠ "version" → k ≠ "edition" →
        lookupKey claim6TP k = some v → lookupKey u k = some v)) ∧
    (claim6TP.filter (fun kv =>
      !(kv.1 == "name") && !(kv.1 == "version") && !(kv.1 == "edition"))).length = 2 ∧
    lookupKey claim6TP "include" = some (Toml.arr [Toml.str "test1", Toml.str "test2"]) :=
  ⟨(claim6_unknown_fields claim6TP claim6P (by decide) rfl).1 "include"
      (by decide) (by decide) (by decide),
   (claim6_unknown_fields claim6TP claim6P (by decide) rfl).2,
   by decide, by decide⟩

theorem Bin.ofKwargs_ok_of_shape (x : Dict) (hn : hasKey x "name" = true)
    (hp : hasKey x "path" = true) (hall : ∀ kv ∈ x, kv.1 = "name" ∨ kv.1 = "path") :
    ∃ b, Bin.ofKwargs x = .ok b := by
  unfold Bin.ofKwargs
  have hcond : x.all (fun kv => kv.1 = "name" || kv.1 = "path") = true := by
    rw [List.all_eq_true]
    intro kv hkv
    simpa using hall kv hkv
  rw [if_pos hcond]
  simp [hasKey] at hn hp
  obtain ⟨n, hn2⟩ := Option.isSome_iff_exists.mp hn
  obtain ⟨p, hp2⟩ := Option.isSome_iff_exists.mp hp
  rw [hn2, hp2]
  exact ⟨⟨n, p⟩, rfl⟩

theorem Bin.ofKwargs_error_shape (x : Dict) (e : ManifestError)
    (h : Bin.ofKwargs x = .error e) : e = .typeError := by
  unfold Bin.ofKwargs at h
  by_cases hc : x.all (fun kv => kv.1 = "name" || kv.1 = "path") = true
  · rw [if_pos hc] at h
    cases h1 : lookupKey x "name" <;> cases h2 : lookupKey x "path" <;> rw [h1, h2] at h
    · injection h with h3
      exact h3.symm
    · injection h with h3
      exact h3.symm
    · injection h with h3
      exact h3.symm
    · cases h
  · rw [if_neg hc] at h
    injection h with h3
    exact h3.symm

theorem Bin.ofKwargs_error_of_bad (x : Dict)
    (hbad : ¬(hasKey x "name" = true ∧ hasKey x "path" = true ∧
      ∀ kv ∈ x, kv.1 = "name" ∨ kv.1 = "path")) :
    Bin.ofKwargs x = .error .typeError := by
  cases hres : Bin.ofKwargs x with
  | ok b =>
    obtain ⟨h1, h2, h3⟩ := Bin.ofKwargs_ok x b hres
    exact absurd ⟨by simp [hasKey, h1], by simp [hasKey, h2], h3⟩ hbad
  | error e =>
    rw [Bin.ofKwargs_error_shape x e hres]

theorem parseBins_error_shape (xs : List Toml) :
    ∀ e : ManifestError, parseBins xs = .error e → e = .typeError := by
  induction xs with
  | nil => intro e h; cases h
  | cons y rest ih =>
    intro e h
    cases y with
    | table t =>
      cases hb : Bin.ofKwargs t with
      | error e2 =>
        simp only [parseBins, hb] at h
        injection h with h3
        rw [← h3]
        exact Bin.ofKwargs_error_shape t e2 hb
      | ok b =>
        cases hr : parseBins rest with
        | error e2 =>
          simp only [parseBins, hb, hr] at h
          injection h with h3
          rw [← h3]
          exact ih e2 hr
        | ok bs => simp [parseBins, hb, hr] at h
    | str s => injection h with h3; exact h3.symm
    | int n => injection h with h3; exact h3.symm
    | bool b => injection h with h3; exact h3.symm
    | arr ys => injection h with h3; exact h3.symm

theorem parseBins_not_ok_of_bad (xs : List Toml) (x : Dict)
    (hmem : Toml.table x ∈ xs)
    (hbad : ¬(hasKey x "name" = true ∧ hasKey x "path" = true ∧
      ∀ kv ∈ x, kv.1 = "name" ∨ kv.1 = "path")) :
    ∀ bs, parseBins xs ≠ .ok bs := by
  induction xs with
  | nil => cases hmem
  | cons y rest ih =>
    intro bs hok
    rcases List.mem_cons.mp hmem with he | hm2
    · rw [← he] at hok
      simp [parseBins, Bin.ofKwargs_error_of_bad x hbad] at hok
    · cases y with
      | table t =>
        cases hb : Bin.ofKwargs t with
        | error e2 => simp [parseBins, hb] at hok
        | ok b =>
          cases hr : parseBins rest with
          | error e2 => simp [parseBins, hb, hr] at hok
          | ok bs2 => exact ih hm2 bs2 hr
      | str s => cases hok
      | int n => cases hok
      | bool b => cases hok
      | arr ys => cases hok

theorem parseBins_typeError_of_bad (xs : List Toml) (x : Dict)
    (hmem : Toml.table x ∈ xs)
    (hbad : ¬(hasKey x "name" = true ∧ hasKey x "path" = true ∧
      ∀ kv ∈ x, kv.1 = "name" ∨ kv.1 = "path")) :
    parseBins xs = .error .typeError := by
  cases hres : parseBins xs with
  | ok bs => exact absurd hres (parseBins_not_ok_of_bad xs x hmem hbad bs)
  | error e =>
    rw [parseBins_error_shape xs e hres]

theorem parseBins_ok_of_good (xs : List Toml)
    (hgood : ∀ y ∈ xs, ∃ x, y = Toml.table x ∧ hasKey x "name" = true ∧
      hasKey x "path" = true ∧ ∀ kv ∈ x, kv.1 = "name" ∨ kv.1 = "path") :
    ∃ bs, parseBins xs = .ok bs := by
  induction xs with
  | nil => exact ⟨[], rfl⟩
  | cons y rest ih =>
    obtain ⟨x, hy, hn, hp, hall⟩ := hgood y (by simp)
    subst hy
    obtain ⟨b, hb⟩ := Bin.ofKwargs_ok_of_shape x hn hp hall
    obtain ⟨bs, hbs⟩ := ih (fun y2 hy2 => hgood y2 (by simp [hy2]))
    exact ⟨b :: bs, by simp [parseBins, hb, hbs]⟩

theorem packageArg_congr (d1 d2 : Dict)
    (h : lookupKey d1 "package" = lookupKey d2 "package") :
    packageArg d1 = packageArg d2 := by
  unfold packageArg
  rw [h]

theorem workspaceArg_congr (d1 d2 : Dict)
    (h : lookupKey d1 "workspace" = lookupKey d2 "workspace") :
    workspaceArg d1 = workspaceArg d2 := by
  unfold workspaceArg
  rw [h]

theorem dependenciesArg_congr (d1 d2 : Dict)
    (h : lookupKey d1 "dependencies" = lookupKey d2 "dependencies") :
    dependenciesArg d1 = dependenciesArg d2 := by
  unfold dependenciesArg
  rw [h]

/-- C9: for a tree whose `bin` array holds a table entry with keys other than
exactly `name` and `path` (extra or missing keys), the parser never accepts
the tree, and when the rest of the tree is well-formed it fails with the
shape error; when every entry is a table with exactly those two keys, the
`bin` array is accepted. -/
theorem claim9_bin_shape (T : Dict) (path : String) (xs : List Toml)
    (hbin : lookupKey T "bin" = some (.arr xs)) :
    (∀ x, Toml.table x ∈ xs →
      ¬(hasKey x "name" = true ∧ hasKey x "path" = true ∧
        ∀ kv ∈ x, kv.1 = "name" ∨ kv.1 = "path") →
      (∀ m, CargoManifest.of path T ≠ .ok m) ∧
      (∀ m0, CargoManifest.of path (eraseKey T "bin") = .ok m0 →
        CargoManifest.of path T = .error .typeError)) ∧
    ((∀ y ∈ xs, ∃ x, y = Toml.table x ∧ hasKey x "name" = true ∧
        hasKey x "path" = true ∧ ∀ kv ∈ x, kv.1 = "name" ∨ kv.1 = "path") →
      ∀ m0, CargoManifest.of path (eraseKey T "bin") = .ok m0 →
        ∃ m, CargoManifest.of path T = .ok m) := by
  constructor
  · intro x hmem hbad
    have hba : binArg T = .error .typeError := by
      unfold binArg
      rw [hbin]
      exact parseBins_typeError_of_bad xs x hmem hbad
    constructor
    · intro m hok
      obtain ⟨_, _, _, _, _, hb⟩ := CargoManifest.of_ok path T m hok
      rw [hba] at hb
      cases hb
    · intro m0 h0
      obtain ⟨_, _, hp0, hw0, hd0, _⟩ := CargoManifest.of_ok path (eraseKey T "bin") m0 h0
      have hp : packageArg T = .ok m0.package := by
        rw [packageArg_congr T (eraseKey T "bin")
          (lookupKey_eraseKey_ne T "bin" "package" (by decide)).symm]
        exact hp0
      have hw : workspaceArg T = .ok m0.workspace := by
        rw [workspaceArg_congr T (eraseKey T "bin")
          (lookupKey_eraseKey_ne T "bin" "workspace" (by decide)).symm]
        exact hw0
      have hd : dependenciesArg T = .ok m0.dependencies := by
        rw [dependenciesArg_congr T (eraseKey T "bin")
          (lookupKey_eraseKey_ne T "bin" "dependencies" (by decide)).symm]
        exact hd0
      unfold CargoManifest.of
      rw [hp, hw, hd, hba]
  · intro hgood m0 h0
    obtain ⟨bs, hbs⟩ := parseBins_ok_of_good xs hgood
    obtain ⟨_, _, hp0, hw0, hd0, _⟩ := CargoManifest.of_ok path (eraseKey T "bin") m0 h0
    have hp : packageArg T = .ok m0.package := by
      rw [packageArg_congr T (eraseKey T "bin")
        (lookupKey_eraseKey_ne T "bin" "package" (by decide)).symm]
      exact hp0
    have hw : workspaceArg T = .ok m0.workspace := by
      rw [workspaceArg_congr T (eraseKey T "bin")
        (lookupKey_eraseKey_ne T "bin" "workspace" (by decide)).symm]
      exact hw0
    have hd : dependenciesArg T = .ok m0.dependencies := by
      rw [dependenciesArg_congr T (eraseKey T "bin")
        (lookupKey_eraseKey_ne T "bin" "dependencies" (by decide)).symm]
      exact hd0
    have hba : binArg T = .ok bs := by
      unfold binArg
      rw [hbin]
      exact hbs
    refine ⟨⟨path, T, m0.package, m0.workspace, m0.dependencies, bs⟩, ?_⟩
    unfold CargoManifest.of
    rw [hp, hw, hd, hba]

/-- A tree whose single bin entry has an extra key beyond `name`/`path`. -/
def claim9T : Dict :=
  [("bin", Toml.arr [Toml.table
    [("name", Toml.str "a"), ("path", Toml.str "b"), ("extra", Toml.int 1)]])]

/-- The same tree with a well-shaped bin entry. -/
def claim9T2 : Dict :=
  [("bin", Toml.arr [Toml.table [("name", Toml.str "a"), ("path", Toml.str "b")]])]

/-- C9 witness: the shape theorem at a concrete bad entry (an extra key makes
the parse fail with the shape error) and at a concrete good entry (exactly
`name` and `path` is accepted). -/
theorem claim9_bin_shape_witness :
    CargoManifest.of "Cargo.toml" claim9T = .error .typeError ∧
    (∃ m, CargoManifest.of "Cargo.toml" claim9T2 = .ok m) :=
  ⟨((claim9_bin_shape claim9T "Cargo.toml"
      [Toml.table [("name", Toml.str "a"), ("path", Toml.str "b"), ("extra", Toml.int 1)]]
      rfl).1
      [("name", Toml.str "a"), ("path", Toml.str "b"), ("extra", Toml.int 1)]
      (by decide) (by decide)).2
    ⟨"Cargo.toml", [], none, none, none, []⟩ rfl,
   (claim9_bin_shape claim9T2 "Cargo.toml"
      [Toml.table [("name", Toml.str "a"), ("path", Toml.str "b")]] rfl).2
    (by
      intro y hy
      rw [List.mem_singleton] at hy
      subst hy
      exact ⟨[("name", Toml.str "a"), ("path", Toml.str "b")], rfl, by decide, by decide,
        by decide⟩)
    ⟨"Cargo.toml", [], none, none, none, []⟩ rfl⟩

/-! ## Heap model of parsing, for the mutation frame claim

The value-level model above erases Python reference semantics, so it cannot
express "parsing does not mutate its argument".  Here parsing is re-embedded
in store-passing style: dict objects live in a heap of cells, nested tables
are references into that heap (Python dicts are shared objects), and the
mutating dict primitives (`dict(...)` allocating a shallow copy, `pop`
removing a key in place) act on the heap explicitly.  The frame theorem then
states that parsing writes no pre-existing cell: it only allocates, which is
exactly why the input tree is unchanged — every section constructor clones
its section with `dict(...)` before popping.  Lists are carried by value,
since the parser never mutates a list. -/

abbrev Ref := Nat

/-- Heap-level TOML values: tables are references to heap cells. -/
inductive HToml where
  | str (s : String)
  | int (n : Int)
  | bool (b : Bool)
  | arr (xs : List HToml)
  | tref (r : Ref)

/-- A heap-level dict body. -/
abbrev HDict := List (String × HToml)

/-- The store of dict objects. -/
structure Heap where
  cells : List HDict

/-- Read a dict object. -/
def Heap.get (h : Heap) (r : Ref) : HDict :=
  h.cells.getD r []

/-- Overwrite a dict object in place. -/
def Heap.set (h : Heap) (r : Ref) (d : HDict) : Heap :=
  ⟨h.cells.set r d⟩

/-- Python `dict(d)`: allocate a fresh shallow copy of the object at `r`. -/
def Heap.copy (h : Heap) (r : Ref) : Ref × Heap :=
  (h.cells.length, ⟨h.cells ++ [h.get r]⟩)

/-- Python `d.pop(k)` / `d.pop(k, None)`: read the value at `k` and remove
the key from the object in place (no write happens when the key is absent,
matching a raising `pop` or a defaulted one). -/
def Heap.pop (h : Heap) (r : Ref) (k : String) : Option HToml × Heap :=
  (lookupKey (h.get r) k, h.set r (eraseKey (h.get r) k))

/-- Heap-level `Package`: `unhandled` is the clone object. -/
structure HPackage where
  name : HToml
  version : Option HToml
  edition : Option HToml
  unhandled : Ref

/-- Heap-level `Package.from_json`: clone the section, pop the known keys
from the clone. -/
def Package.from_json_h (h : Heap) (json : Ref) :
    Except ManifestError HPackage × Heap :=
  let (cloned, h) := h.copy json
  let (nm, h) := h.pop cloned "name"
  match nm with
  | none => (.error (.keyError "name"), h)
  | some name =>
    let (version, h) := h.pop cloned "version"
    let (edition, h) := h.pop cloned "edition"
    (.ok ⟨name, version, edition, cloned⟩, h)

/-- Heap-level `WorkspacePackage`. -/
structure HWorkspacePackage where
  version : HToml
  unhandled : Ref

/-- Heap-level `WorkspacePackage.from_json`. -/
def WorkspacePackage.from_json_h (h : Heap) (json : Ref) :
    Except ManifestError HWorkspacePackage × Heap :=
  let (cloned, h) := h.copy json
  let (ver, h) := h.pop cloned "version"
  match ver with
  | none => (.error (.keyError "version"), h)
  | some version => (.ok ⟨version, cloned⟩, h)

/-- Heap-level `Workspace`. -/
structure HWorkspace where
  package : Option HWorkspacePackage
  members : Option HToml
  unhandled : Ref

/-- Heap-level `Workspace.from_json`: clone, pop `package` if present (the
popped value must be a dict reference, and parsing it clones that nested
object in turn), pop `members` if present. -/
def Workspace.from_json_h (h : Heap) (json : Ref) :
    Except ManifestError HWorkspace × Heap :=
  let (cloned, h) := h.copy json
  if hasKey (h.get cloned) "package" then
    let (pv, h) := h.pop cloned "package"
    match pv with
    | some (.tref r) =>
      match WorkspacePackage.from_json_h h r with
      | (.error e, h) => (.error e, h)
      | (.ok wp, h) =>
        if hasKey (h.get cloned) "members" then
          let (mv, h) := h.pop cloned "members"
          (.ok ⟨some wp, mv, cloned⟩, h)
        else (.ok ⟨some wp, none, cloned⟩, h)
    | _ => (.error .typeError, h)
  else
    if hasKey (h.get cloned) "members" then
      let (mv, h) := h.pop cloned "members"
      (.ok ⟨none, mv, cloned⟩, h)
    else (.ok ⟨none, none, cloned⟩, h)

/-- Heap-level `Dependencies`: the clone object. -/
structure HDependencies where
  data : Ref

/-- Heap-level `Dependencies.from_json`: clone and keep whole. -/
def Dependencies.from_json_h (h : Heap) (json : Ref) : HDependencies × Heap :=
  let (cloned, h) := h.copy json
  (⟨cloned⟩, h)

/-- Heap-level binary target. -/
structure HBin where
  name : HToml
  path : HToml

/-- Heap-level `Bin(**x)`: reads the dict object, writes nothing. -/
def Bin.ofKwargs_h (h : Heap) (r : Ref) : Except ManifestError HBin :=
  let x := h.get r
  if x.all (fun kv => kv.1 = "name" || kv.1 = "path") then
    match lookupKey x "name", lookupKey x "path" with
    | some n, some p => .ok ⟨n, p⟩
    | _, _ => .error .typeError
  else .error .typeError

/-- Heap-level `[Bin(**x) for x in ...]`: reads only. -/
def parseBins_h (h : Heap) : List HToml → Except ManifestError (List HBin)
  | [] => .ok []
  | .tref r :: rest =>
    match Bin.ofKwargs_h h r with
    | .error e => .error e
    | .ok b =>
      match parseBins_h h rest with
      | .error e => .error e
      | .ok bs => .ok (b :: bs)
  | _ :: _ => .error .typeError

/-- Heap-level manifest. -/
structure HCargoManifest where
  _path : String
  _data : Ref
  package : Option HPackage
  workspace : Option HWorkspace
  dependencies : Option HDependencies
  bin : List HBin

/-- Heap-level `package` constructor argument of `CargoManifest.of`. -/
def packageArg_h (h : Heap) (data : Ref) :
    Except ManifestError (Option HPackage) × Heap :=
  match lookupKey (h.get data) "package" with
  | some (.tref r) =>
    match Package.from_json_h h r with
    | (.error e, h2) => (.error e, h2)
    | (.ok p, h2) => (.ok (some p), h2)
  | some _ => (.error .typeError, h)
  | none => (.ok none, h)

/-- Heap-level `workspace` constructor argument of `CargoManifest.of`. -/
def workspaceArg_h (h : Heap) (data : Ref) :
    Except ManifestError (Option HWorkspace) × Heap :=
  match lookupKey (h.get data) "workspace" with
  | some (.tref r) =>
    match Workspace.from_json_h h r with
    | (.error e, h2) => (.error e, h2)
    | (.ok w, h2) => (.ok (some w), h2)
  | some _ => (.error .typeError, h)
  | none => (.ok none, h)

/-- Heap-level `dependencies` constructor argument of `CargoManifest.of`. -/
def dependenciesArg_h (h : Heap) (data : Ref) :
    Except ManifestError (Option HDependencies) × Heap :=
  match lookupKey (h.get data) "dependencies" with
  | some (.tref r) =>
    match Dependencies.from_json_h h r with
    | (dp, h2) => (.ok (some dp), h2)
  | some _ => (.error .typeError, h)
  | none => (.ok none, h)

/-- Heap-level `bin` constructor argument of `CargoManifest.of`: reads
only, so it returns no heap. -/
def binArg_h (h : Heap) (data : Ref) : Except ManifestError (List HBin) :=
  match lookupKey (h.get data) "bin" with
  | some (.arr xs) => parseBins_h h xs
  | some _ => .error .typeError
  | none => .ok []

/-- Heap-level `CargoManifest.of`: the four constructor arguments evaluated
in order; the raw tree reference is stored unchanged. -/
def CargoManifest.of_h (h : Heap) (path : String) (data : Ref) :
    Except ManifestError HCargoManifest × Heap :=
  match packageArg_h h data with
  | (.error e, h1) => (.error e, h1)
  | (.ok package, h1) =>
    match workspaceArg_h h1 data with
    | (.error e, h2) => (.error e, h2)
    | (.ok workspace, h2) =>
      match dependenciesArg_h h2 data with
      | (.error e, h3) => (.error e, h3)
      | (.ok dependencies, h3) =>
        match binArg_h h3 data with
        | .error e => (.error e, h3)
        | .ok bin => (.ok ⟨path, data, package, workspace, dependencies, bin⟩, h3)

theorem getD_set_ne {α : Type} (l : List α) (r i : Nat) (a dflt : α) (h : i ≠ r) :
    (l.set r a).getD i dflt = l.getD i dflt := by
  induction l generalizing r i with
  | nil => simp
  | cons x xs ih =>
    cases r with
    | zero =>
      cases i with
      | zero => exact absurd rfl h
      | succ j => simp [List.getD_cons_succ]
    | succ r2 =>
      cases i with
      | zero => simp [List.getD_cons_zero]
      | succ j =>
        simp only [List.set, List.getD_cons_succ]
        exact ih r2 j (fun hh => h (by rw [hh]))

theorem getD_append_lt {α : Type} (l l2 : List α) (i : Nat) (dflt : α)
    (h : i < l.length) : (l ++ l2).getD i dflt = l.getD i dflt := by
  induction l generalizing i with
  | nil => simp at h
  | cons x xs ih =>
    cases i with
    | zero => simp [List.getD_cons_zero]
    | succ j =>
      simp only [List.cons_append, List.getD_cons_succ]
      exact ih j (by simpa using h)

/-- All cells below `n` are intact and the heap is still at least `n` long. -/
def FrameBelow (n : Nat) (h1 h2 : Heap) : Prop :=
  n ≤ h2.cells.length ∧ ∀ i, i < n → h2.get i = h1.get i

theorem frameBelow_trans (n : Nat) (h1 h2 h3 : Heap)
    (f1 : FrameBelow n h1 h2) (f2 : FrameBelow n h2 h3) : FrameBelow n h1 h3 :=
  ⟨f2.1, fun i hi => (f2.2 i hi).trans (f1.2 i hi)⟩

theorem copy_frameBelow (n : Nat) (h : Heap) (r : Ref) (hn : n ≤ h.cells.length) :
    FrameBelow n h (h.copy r).2 := by
  refine ⟨by simp [Heap.copy]; omega, ?_⟩
  intro i hi
  show Heap.get ⟨h.cells ++ [h.get r]⟩ i = h.get i
  unfold Heap.get
  exact getD_append_lt h.cells [h.get r] i [] (by omega)

theorem pop_frameBelow (n : Nat) (h : Heap) (r : Ref) (k : String)
    (hn : n ≤ h.cells.length) (hr : n ≤ r) : FrameBelow n h (h.pop r k).2 := by
  refine ⟨by simp [Heap.pop, Heap.set]; omega, ?_⟩
  intro i hi
  show Heap.get (h.set r (eraseKey (h.get r) k)) i = h.get i
  unfold Heap.get Heap.set
  exact getD_set_ne h.cells r i _ [] (by omega)

theorem length_pop (h : Heap) (r : Ref) (k : String) :
    (h.pop r k).2.cells.length = h.cells.length := by
  simp [Heap.pop, Heap.set]

theorem pkg_h_frame (h h2 : Heap) (r : Ref) (res : Except ManifestError HPackage)
    (n : Nat) (hrun : Package.from_json_h h r = (res, h2))
    (hn : n ≤ h.cells.length) : FrameBelow n h h2 := by
  have f1 : FrameBelow n h (h.copy r).2 := copy_frameBelow n h r hn
  have hcl : (h.copy r).1 = h.cells.length := rfl
  have hlen1 : (h.copy r).2.cells.length = h.cells.length + 1 := by simp [Heap.copy]
  have f2 : FrameBelow n h ((h.copy r).2.pop (h.copy r).1 "name").2 :=
    frameBelow_trans n h _ _ f1
      (pop_frameBelow n _ _ "name" (by rw [hlen1]; omega) (by rw [hcl]; exact hn))
  have hlen2 : ((h.copy r).2.pop (h.copy r).1 "name").2.cells.length
      = h.cells.length + 1 := by rw [length_pop, hlen1]
  have f3 : FrameBelow n h
      ((((h.copy r).2.pop (h.copy r).1 "name").2).pop (h.copy r).1 "version").2 :=
    frameBelow_trans n h _ _ f2
      (pop_frameBelow n _ _ "version" (by rw [hlen2]; omega) (by rw [hcl]; exact hn))
  have hlen3 : ((((h.copy r).2.pop (h.copy r).1 "name").2).pop
      (h.copy r).1 "version").2.cells.length = h.cells.length + 1 := by
    rw [length_pop, hlen2]
  have f4 : FrameBelow n h
      (((((h.copy r).2.pop (h.copy r).1 "name").2).pop
        (h.copy r).1 "version").2.pop (h.copy r).1 "edition").2 :=
    frameBelow_trans n h _ _ f3
      (pop_frameBelow n _ _ "edition" (by rw [hlen3]; omega) (by rw [hcl]; exact hn))
  unfold Package.from_json_h at hrun
  simp only [Heap.copy, Heap.pop] at hrun
  split at hrun
  · injection hrun with hres hheap
    rw [← hheap]
    exact f2
  · injection hrun with hres hheap
    rw [← hheap]
    exact f4

theorem wspkg_h_frame (h h2 : Heap) (r : Ref)
    (res : Except ManifestError HWorkspacePackage) (n : Nat)
    (hrun : WorkspacePackage.from_json_h h r = (res, h2))
    (hn : n ≤ h.cells.length) : FrameBelow n h h2 := by
  have f1 : FrameBelow n h (h.copy r).2 := copy_frameBelow n h r hn
  have hcl : (h.copy r).1 = h.cells.length := rfl
  have hlen1 : (h.copy r).2.cells.length = h.cells.length + 1 := by simp [Heap.copy]
  have f2 : FrameBelow n h ((h.copy r).2.pop (h.copy r).1 "version").2 :=
    frameBelow_trans n h _ _ f1
      (pop_frameBelow n _ _ "version" (by rw [hlen1]; omega) (by rw [hcl]; exact hn))
  unfold WorkspacePackage.from_json_h at hrun
  simp only [Heap.copy, Heap.pop] at hrun
  split at hrun
  · injection hrun with hres hheap
    rw [← hheap]
    exact f2
  · injection hrun with hres hheap
    rw [← hheap]
    exact f2

theorem ws_h_frame (h h2 : Heap) (r : Ref) (res : Except ManifestError HWorkspace)
    (n : Nat) (hrun : Workspace.from_json_h h r = (res, h2))
    (hn : n ≤ h.cells.length) : FrameBelow n h h2 := by
  have hcl : (h.copy r).1 = h.cells.length := rfl
  have f1 : FrameBelow n h (h.copy r).2 := copy_frameBelow n h r hn
  have hlen1 : (h.copy r).2.cells.length = h.cells.length + 1 := by simp [Heap.copy]
  have f2 : FrameBelow n h ((h.copy r).2.pop (h.copy r).1 "package").2 :=
    frameBelow_trans n h _ _ f1
      (pop_frameBelow n _ _ "package" (by rw [hlen1]; omega) (by rw [hcl]; exact hn))
  unfold Workspace.from_json_h at hrun
  simp only [Heap.copy, Heap.pop] at hrun
  split at hrun
  · -- package key present
    split at hrun
    · -- the popped value is a dict reference
      rename_i r2 hpv
      split at hrun
      · -- nested WorkspacePackage parse fails
        rename_i e3 hE heq
        injection hrun with hres hheap
        rw [← hheap]
        exact frameBelow_trans n h _ _ f2
          (wspkg_h_frame _ _ r2 _ n heq f2.1)
      · -- nested WorkspacePackage parse succeeds
        rename_i wp hO heq
        have f3 : FrameBelow n h hO :=
          frameBelow_trans n h _ _ f2 (wspkg_h_frame _ _ r2 _ n heq f2.1)
        split at hrun
        · -- members present: one more pop on the clone
          injection hrun with hres hheap
          rw [← hheap]
          exact frameBelow_trans n h _ _ f3
            (pop_frameBelow n hO (h.copy r).1 "members" f3.1 (by rw [hcl]; exact hn))
        · -- members absent
          injection hrun with hres hheap
          rw [← hheap]
          exact f3
    · -- the popped value is not a dict reference
      injection hrun with hres hheap
      rw [← hheap]
      exact f2
  · -- package key absent
    split at hrun
    · -- members present
      injection hrun with hres hheap
      rw [← hheap]
      exact frameBelow_trans n h _ _ f1
        (pop_frameBelow n _ (h.copy r).1 "members" (by rw [hlen1]; omega)
          (by rw [hcl]; exact hn))
    · -- members absent
      injection hrun with hres hheap
      rw [← hheap]
      exact f1

theorem deps_h_frame (h h2 : Heap) (r : Ref) (res : HDependencies) (n : Nat)
    (hrun : Dependencies.from_json_h h r = (res, h2))
    (hn : n ≤ h.cells.length) : FrameBelow n h h2 := by
  unfold Dependencies.from_json_h at hrun
  simp only [Heap.copy] at hrun
  injection hrun with hres hheap
  rw [← hheap]
  exact copy_frameBelow n h r hn

theorem packageArg_h_frame (h h2 : Heap) (data : Ref)
    (res : Except ManifestError (Option HPackage)) (n : Nat)
    (hrun : packageArg_h h data = (res, h2)) (hn : n ≤ h.cells.length) :
    FrameBelow n h h2 := by
  unfold packageArg_h at hrun
  split at hrun
  · rename_i r2 hpv
    split at hrun
    · rename_i e3 hE heq
      injection hrun with hres hheap
      rw [← hheap]
      exact pkg_h_frame h _ r2 _ n heq hn
    · rename_i p hO heq
      injection hrun with hres hheap
      rw [← hheap]
      exact pkg_h_frame h _ r2 _ n heq hn
  · injection hrun with hres hheap
    rw [← hheap]
    exact ⟨hn, fun _ _ => rfl⟩
  · injection hrun with hres hheap
    rw [← hheap]
    exact ⟨hn, fun _ _ => rfl⟩

theorem workspaceArg_h_frame (h h2 : Heap) (data : Ref)
    (res : Except ManifestError (Option HWorkspace)) (n : Nat)
    (hrun : workspaceArg_h h data = (res, h2)) (hn : n ≤ h.cells.length) :
    FrameBelow n h h2 := by
  unfold workspaceArg_h at hrun
  split at hrun
  · rename_i r2 hpv
    split at hrun
    · rename_i e3 hE heq
      injection hrun with hres hheap
      rw [← hheap]
      exact ws_h_frame h _ r2 _ n heq hn
    · rename_i w hO heq
      injection hrun with hres hheap
      rw [← hheap]
      exact ws_h_frame h _ r2 _ n heq hn
  · injection hrun with hres hheap
    rw [← hheap]
    exact ⟨hn, fun _ _ => rfl⟩
  · injection hrun with hres hheap
    rw [← hheap]
    exact ⟨hn, fun _ _ => rfl⟩

theorem dependenciesArg_h_frame (h h2 : Heap) (data : Ref)
    (res : Except ManifestError (Option HDependencies)) (n : Nat)
    (hrun : dependenciesArg_h h data = (res, h2)) (hn : n ≤ h.cells.length) :
    FrameBelow n h h2 := by
  unfold dependenciesArg_h at hrun
  split at hrun
  · rename_i r2 hpv
    split at hrun
    rename_i dp hO heq
    injection hrun with hres hheap
    rw [← hheap]
    exact deps_h_frame h _ r2 _ n heq hn
  · injection hrun with hres hheap
    rw [← hheap]
    exact ⟨hn, fun _ _ => rfl⟩
  · injection hrun with hres hheap
    rw [← hheap]
    exact ⟨hn, fun _ _ => rfl⟩

/-- C10: parsing never writes to a pre-existing heap cell.  Every section
constructor copies its section dict before popping the recognized keys, so
after `CargoManifest.of` runs (whether it succeeds or fails), every dict
object that existed before — in particular the whole input tree reachable
from `data` — is unchanged: the heap only grew by the freshly allocated
clones. -/
theorem claim10_parse_no_mutation (h : Heap) (path : String) (data : Ref) :
    h.cells.length ≤ (CargoManifest.of_h h path data).2.cells.length ∧
    ∀ i, i < h.cells.length →
      (CargoManifest.of_h h path data).2.get i = h.get i := by
  have main : ∀ res h2, CargoManifest.of_h h path data = (res, h2) →
      FrameBelow h.cells.length h h2 := by
    intro res h2 hrun
    unfold CargoManifest.of_h at hrun
    split at hrun
    · rename_i e1 h1 heq1
      injection hrun with hres hheap
      rw [← hheap]
      exact packageArg_h_frame h _ data _ _ heq1 le_rfl
    · rename_i pk h1 heq1
      have f1 : FrameBelow h.cells.length h h1 :=
        packageArg_h_frame h _ data _ _ heq1 le_rfl
      split at hrun
      · rename_i e2 h2b heq2
        injection hrun with hres hheap
        rw [← hheap]
        exact frameBelow_trans _ h _ _ f1
          (workspaceArg_h_frame h1 _ data _ _ heq2 f1.1)
      · rename_i wk h2b heq2
        have f2 : FrameBelow h.cells.length h h2b :=
          frameBelow_trans _ h _ _ f1
            (workspaceArg_h_frame h1 _ data _ _ heq2 f1.1)
        split at hrun
        · rename_i e3 h3 heq3
          injection hrun with hres hheap
          rw [← hheap]
          exact frameBelow_trans _ h _ _ f2
            (dependenciesArg_h_frame h2b _ data _ _ heq3 f2.1)
        · rename_i dk h3 heq3
          have f3 : FrameBelow h.cells.length h h3 :=
            frameBelow_trans _ h _ _ f2
              (dependenciesArg_h_frame h2b _ data _ _ heq3 f2.1)
          split at hrun
          · injection hrun with hres hheap
            rw [← hheap]
            exact f3
          · injection hrun with hres hheap
            rw [← hheap]
            exact f3
  obtain ⟨fa, fb⟩ := main (CargoManifest.of_h h path data).1
    (CargoManifest.of_h h path data).2 rfl
  exact ⟨fa, fb⟩

/-- A two-cell heap: cell 0 is the root tree, holding a `package` reference
to cell 1, which has a `name` and an extra key. -/
def claim10H : Heap :=
  ⟨[[("package", HToml.tref 1)],
    [("name", HToml.str "t"), ("extra", HToml.int 1)]]⟩

/-- C10 witness: the frame theorem at a concrete two-cell heap; both the
root dict and the nested package dict are unchanged by a successful parse
(the pops happened on fresh clones). -/
theorem claim10_parse_no_mutation_witness :
    (CargoManifest.of_h claim10H "Cargo.toml" 0).2.get 0 = claim10H.get 0 ∧
    (CargoManifest.of_h claim10H "Cargo.toml" 0).2.get 1 = claim10H.get 1 :=
  ⟨(claim10_parse_no_mutation claim10H "Cargo.toml" 0).2 0 (by decide),
   (claim10_parse_no_mutation claim10H "Cargo.toml" 0).2 1 (by decide)⟩

end Cargo
